import Mathlib

/-!
# Verification of the `git-commit-format` chunking and formatting code

This file gives a shallow embedding of the TypeScript sources of the
`git-commit-format` VS Code extension and proves properties of it.

* A document is modelled as a `List String` of its lines (no line contains
  a newline character); `vscode.Range` values that always span whole lines
  are modelled by inclusive `startLine`/`endLine` numbers.
* The regexes of the source are translated into decidable predicates over
  the line text, following JavaScript regex semantics (non-multiline
  anchors, greedy quantifiers with backtracking, JS `\s` character class).
* The chunking state machine `getDocumentChunks`, the trailer heuristic
  `isTrailersChunk`, the per-chunk formatters and the edit-list entry
  point are translated from `src/formatter.ts` (the second, current
  variant in that file, with Diff/Trailers support).
* The legacy whole-document string formatter (with its *global* regex
  `REGEX_SPLIT = /^\s*(#|$)/g`, whose `lastIndex` is shared mutable state
  across `.test()` calls) is translated with the regex state passed
  explicitly, so the statefulness of the original is modelled faithfully.
-/

set_option maxRecDepth 10000

namespace GitCommitFormat

/-! ## Characters and the JS `\s` class -/

/-- JavaScript's `\s` character class: ASCII whitespace, NBSP, BOM,
Unicode space separators and line separators. -/
def isJsWhitespace (c : Char) : Bool :=
  c = ' ' || c = '\t' || c = '\n' || c = '\u000B' || c = '\u000C' || c = '\r' ||
  c = '\u00A0' || c = '\u1680' || ('\u2000' ≤ c && c ≤ '\u200A') ||
  c = '\u2028' || c = '\u2029' || c = '\u202F' || c = '\u205F' ||
  c = '\u3000' || c = '\uFEFF'

/-! ## The line regexes of `formatter.ts`

`REGEX_BLANK = /^\s*$/`, `REGEX_SPLIT = /^\s*(#|$)/`,
`REGEX_CUT_LINE = /^# ------------------------ >8 ------------------------$/`,
`REGEX_TRAILER = /^[A-Za-z0-9\-]+\s?: .+$/`, `REGEX_TRAILER_CONT = /^\s+$/`. -/

/-- `REGEX_BLANK.test`: the whole line is whitespace (possibly empty). -/
def isBlankLine (s : String) : Bool :=
  s.data.all isJsWhitespace

/-- `REGEX_SPLIT.test` (without the `g` flag): optional leading whitespace
followed by `#` or the end of the line.  Since `#` is not whitespace and the
`$` alternative forces the whole line to be consumed by `\s*`, the regex
matches iff after dropping the leading whitespace run the line is empty or
starts with `#`. -/
def isSplitLine (s : String) : Bool :=
  match s.data.dropWhile isJsWhitespace with
  | [] => true
  | c :: _ => c = '#'

/-- `REGEX_CUT_LINE.test`: the line is exactly git's scissors line. -/
def isCutLine (s : String) : Bool :=
  s = "# ------------------------ >8 ------------------------"

/-- Character class `[A-Za-z0-9\-]` of the trailer-key regex. -/
def isTrailerKeyChar (c : Char) : Bool :=
  ('A' ≤ c && c ≤ 'Z') || ('a' ≤ c && c ≤ 'z') || ('0' ≤ c && c ≤ '9') || c = '-'

/-- `REGEX_TRAILER.test`: `^[A-Za-z0-9\-]+\s?: .+$`.  The key run is forced
to be the maximal run of key characters (a key character is neither
whitespace nor `:`), then an optional single whitespace, then `: `, then at
least one non-newline character reaching the end of the line. -/
def isTrailerLine (s : String) : Bool :=
  let cs := s.data
  let key := cs.takeWhile isTrailerKeyChar
  let rest := cs.dropWhile isTrailerKeyChar
  decide (key ≠ []) &&
    (match rest with
     | ':' :: ' ' :: v => decide (v ≠ []) && v.all (· ≠ '\n')
     | w :: ':' :: ' ' :: v => isJsWhitespace w && decide (v ≠ []) && v.all (· ≠ '\n')
     | _ => false)

/-- `REGEX_TRAILER_CONT.test`: `^\s+$`, a nonempty all-whitespace line. -/
def isTrailerCont (s : String) : Bool :=
  decide (s.data ≠ []) && s.data.all isJsWhitespace

/-- `GIT_GENERATED_PREFIXES` from `formatter.ts`. -/
def GIT_GENERATED_PREFIXES : List String :=
  ["Signed-off-by: ", "(cherry picked from commit "]

/-- The first-line check of `isTrailersChunk`: does the line start with one
of the known git-generated markers? -/
def hasGitGeneratedStart (s : String) : Bool :=
  GIT_GENERATED_PREFIXES.any (fun p => p.data.isPrefixOf s.data)

/-! ## Chunks and the chunking state machine (`getDocumentChunks`) -/

/-- `GitChunkKind` from `formatter.ts`. -/
inductive GitChunkKind where
  | Subject
  | Paragraph
  | Comment
  | Blank
  | Diff
  | Trailers
deriving DecidableEq, Repr, Inhabited

/-- `GitCommitChunk`: a range of whole lines (inclusive) plus a kind.  The
fabricated initial chunk of the scan has an empty character range located
on line 0; it is represented here as `⟨0, 0, Blank⟩`. -/
structure Chunk where
  startLine : Nat
  endLine : Nat
  kind : GitChunkKind
deriving DecidableEq, Repr, Inhabited

/-- The mutable locals of the `getDocumentChunks` loop. -/
structure ChunkState where
  chunks : List Chunk
  lastKind : GitChunkKind
  hadInitialLine : Bool
  hadSubjectLine : Bool
  hadCutLine : Bool
  areInDiff : Bool
deriving Repr

/-- The state before the loop: a fabricated Blank chunk with an empty range
at position 0, `lastKind = Blank`, all flags false. -/
def initState : ChunkState :=
  { chunks := [⟨0, 0, GitChunkKind.Blank⟩]
    lastKind := GitChunkKind.Blank
    hadInitialLine := false
    hadSubjectLine := false
    hadCutLine := false
    areInDiff := false }

/-- `chunks[chunks.length - 1].range = ….with(undefined, line.range.end)`:
set the end line of the last chunk. -/
def extendLast (cs : List Chunk) (k : Nat) : List Chunk :=
  match cs with
  | [] => []
  | [c] => [{ c with endLine := k }]
  | c :: c' :: rest => c :: extendLast (c' :: rest) k

/-- The raw-kind cascade at the top of the loop body: blank, comment, or
paragraph. -/
def rawKind (t : String) : GitChunkKind :=
  if isBlankLine t then GitChunkKind.Blank
  else if isSplitLine t then GitChunkKind.Comment
  else GitChunkKind.Paragraph

/-- `hadCutLine` is only updated inside the Comment branch of the
cascade. -/
def stepHadCut (t : String) (prev : Bool) : Bool :=
  if isBlankLine t then prev
  else if isSplitLine t then prev || isCutLine t
  else prev

/-- One iteration of the `getDocumentChunks` loop on line number `counter`
with text `t`. -/
def processLine (t : String) (counter : Nat) (s : ChunkState) : ChunkState :=
  -- check the kind of 'raw' chunk we have
  let kind0 : GitChunkKind := rawKind t
  let hadCutLine : Bool := stepHadCut t s.hadCutLine
  -- once a cut line was followed by a non-comment line, everything is diff
  let areInDiff : Bool := s.areInDiff || (hadCutLine && !isSplitLine t)
  let kind : GitChunkKind := if areInDiff then GitChunkKind.Diff else kind0
  if kind = s.lastKind then
    -- same kind as the open chunk: append the line to it
    { s with chunks := extendLast s.chunks counter
             hadInitialLine := true
             hadCutLine := hadCutLine
             areInDiff := areInDiff }
  else
    -- the fabricated initial chunk is still in the array: discard it
    let chunks := if s.hadInitialLine then s.chunks else s.chunks.dropLast
    -- promote the first paragraph chunk to the subject
    let pushKind : GitChunkKind :=
      if kind = GitChunkKind.Paragraph && !s.hadSubjectLine then
        GitChunkKind.Subject
      else kind
    let hadSubjectLine : Bool :=
      if kind = GitChunkKind.Paragraph && !s.hadSubjectLine then true
      else s.hadSubjectLine
    { chunks := chunks ++ [⟨counter, counter, pushKind⟩]
      lastKind := kind
      hadInitialLine := true
      hadSubjectLine := hadSubjectLine
      hadCutLine := hadCutLine
      areInDiff := areInDiff }

/-- The `for` loop of `getDocumentChunks` over the remaining lines,
`counter` being the number of the first line of `rest`. -/
def runChunks : List String → Nat → ChunkState → ChunkState
  | [], _, s => s
  | t :: rest, counter, s => runChunks rest (counter + 1) (processLine t counter s)

/-- The chunk list before the trailer reclassification step. -/
def assembleChunks (doc : List String) : List Chunk :=
  (runChunks doc 0 initState).chunks

/-! ## The trailer heuristic (`isTrailersChunk`) -/

/-- The scan loop of `isTrailersChunk` after the first line has been
handled: `recognized` is `recognized_prefix`, `trailers`/`nonTrailers` the
counters, `pc` is `possible_continuation`. -/
def trailersScan : List String → Bool → Nat → Nat → Bool → Bool
  | [], recognized, trailers, nonTrailers, _ =>
    decide (nonTrailers = 0 ∧ 0 < trailers) || (recognized && decide (nonTrailers ≤ 3 * trailers))
  | t :: rest, recognized, trailers, nonTrailers, pc =>
    if pc && isTrailerCont t then
      -- multi-line continuation
      trailersScan rest recognized trailers nonTrailers pc
    else if isTrailerLine t then
      -- saw a trailer => next line could be a continuation
      trailersScan rest recognized (trailers + 1) nonTrailers true
    else if !recognized then
      -- fast exit: non-trailer line and no recognized prefix
      false
    else
      trailersScan rest recognized trailers (nonTrailers + 1) false

/-- `isTrailersChunk`, operating on the list of line texts of the chunk.
The first line is checked against the git-generated markers; if one
matches it counts as a trailer unconditionally and the rest of the loop
body is skipped for it. -/
def isTrailersChunkLines (ls : List String) : Bool :=
  match ls with
  | [] => trailersScan [] false 0 0 false
  | first :: rest =>
    if hasGitGeneratedStart first then trailersScan rest true 1 0 false
    else trailersScan (first :: rest) false 0 0 false

/-- The lines of the document covered by a chunk (`document.lineAt` over
the chunk's line range). -/
def chunkLines (doc : List String) (c : Chunk) : List String :=
  (doc.drop c.startLine).take (c.endLine + 1 - c.startLine)

/-- `document.getText(range)` for a whole-line range. -/
def chunkText (doc : List String) (c : Chunk) : String :=
  String.intercalate "\n" (chunkLines doc c)

/-- `chunks.map(chunk => chunk.kind).lastIndexOf(GitChunkKind.Paragraph)`,
as an `Option` (the source's `-1` becomes `none`). -/
def lastParagraphIdx : List Chunk → Option Nat
  | [] => none
  | c :: rest =>
    match lastParagraphIdx rest with
    | some i => some (i + 1)
    | none => if c.kind = GitChunkKind.Paragraph then some 0 else none

/-- The trailer reclassification step at the end of `getDocumentChunks`:
the last Paragraph chunk becomes a Trailers chunk if `isTrailersChunk`
accepts it. -/
def reclassifyLast (doc : List String) (cs : List Chunk) : List Chunk :=
  match lastParagraphIdx cs with
  | none => cs
  | some i =>
    let c := cs.getD i default
    if isTrailersChunkLines (chunkLines doc c) then
      cs.set i { c with kind := GitChunkKind.Trailers }
    else cs

/-- `getDocumentChunks` from `formatter.ts`: run the scan, then possibly
reclassify the last Paragraph chunk as Trailers. -/
def getDocumentChunks (doc : List String) : List Chunk :=
  reclassifyLast doc (assembleChunks doc)

/-! ## Whitespace collapsing, trimming and the 72-column greedy wrap -/

/-- `text.replace(/\s+/g, ' ')`: each maximal whitespace run becomes a
single space.  `inRun` records whether the previous character was part of
a whitespace run whose replacement space has already been emitted. -/
def collapseWsAux : List Char → Bool → List Char
  | [], _ => []
  | c :: rest, inRun =>
    if isJsWhitespace c then
      if inRun then collapseWsAux rest true
      else ' ' :: collapseWsAux rest true
    else c :: collapseWsAux rest false

/-- `text.replace(/\s+/g, ' ')`. -/
def collapseWs (cs : List Char) : List Char :=
  collapseWsAux cs false

/-- `String.prototype.trim()` on a character list. -/
def jsTrim (cs : List Char) : List Char :=
  ((cs.dropWhile isJsWhitespace).reverse.dropWhile isJsWhitespace).reverse

/-- `formatSubjectChunk`: collapse whitespace runs, then trim. -/
def formatSubjectChunk (s : String) : String :=
  String.mk (jsTrim (collapseWs s.data))

/-- One attempted match of `([^\n]{1,72})\s` at the current position:
the greedy group takes the largest `k ≤ 72` such that the first `k`
characters are not newlines and the character at index `k` is whitespace.
`limit` counts down from 72. -/
def findWrapK (cs : List Char) : Nat → Option Nat
  | 0 => none
  | k + 1 =>
    if (cs.take (k + 1)).all (· ≠ '\n') &&
       (match cs.get? (k + 1) with
        | some w => isJsWhitespace w
        | none => false) then
      some (k + 1)
    else findWrapK cs k

/-- Attempted match of `/(?![^\n]{1,72}$)([^\n]{1,72})\s/` at the current
position: the negative lookahead blocks exactly when the whole remaining
text has length 1..72 and contains no newline (it would fit on the final
line); otherwise the greedy group is tried. -/
def wrapMatchAt (cs : List Char) : Option Nat :=
  if 1 ≤ cs.length && cs.length ≤ 72 && cs.all (· ≠ '\n') then none
  else findWrapK cs 72

/-- The global `replace` scan of the wrap regex with replacement `'$1\n'`:
on a match of `k` characters plus one whitespace character, the `k`
characters are kept, the whitespace becomes `'\n'`, and scanning resumes
after the match; on failure the scan advances one character.  `fuel` is an
upper bound on the remaining length, making the recursion structural. -/
def wrapScanF : Nat → List Char → List Char
  | 0, cs => cs
  | fuel + 1, cs =>
    match cs with
    | [] => []
    | c :: rest =>
      match wrapMatchAt cs with
      | some k => cs.take k ++ '\n' :: wrapScanF fuel (cs.drop (k + 1))
      | none => c :: wrapScanF fuel rest

/-- The full wrap scan. -/
def wrapScan (cs : List Char) : List Char :=
  wrapScanF cs.length cs

/-- `formatParagraphChunk`: collapse whitespace runs and trim, then greedy
wrap at column 72 via
`.replace(/(?![^\n]{1,72}$)([^\n]{1,72})\s/g, '$1\n')`. -/
def formatParagraphChunk (s : String) : String :=
  String.mk (wrapScan (jsTrim (collapseWs s.data)))

/-! ## The per-chunk edit list (`formatGitCommitMessage` in `formatter.ts`) -/

/-- A `vscode.TextEdit` replacing a whole-line range. -/
structure TextEdit where
  startLine : Nat
  endLine : Nat
  newText : String
deriving DecidableEq, Repr, Inhabited

/-- The body of the `.map` in `formatGitCommitMessage`: which edit (if
any) a chunk produces. -/
def editForChunk (doc : List String) (c : Chunk) : Option TextEdit :=
  if c.kind = GitChunkKind.Subject then
    some ⟨c.startLine, c.endLine, formatSubjectChunk (chunkText doc c)⟩
  else if c.kind = GitChunkKind.Paragraph then
    some ⟨c.startLine, c.endLine, formatParagraphChunk (chunkText doc c)⟩
  else if c.kind = GitChunkKind.Trailers then
    some ⟨c.startLine, c.endLine, chunkText doc c⟩
  else if c.kind = GitChunkKind.Blank then
    some ⟨c.startLine, c.endLine, ""⟩
  else none

/-- `formatGitCommitMessage` (per-chunk variant): map chunks to edits and
drop the `undefined` entries. -/
def formatGitCommitMessageEdits (doc : List String) : List TextEdit :=
  (getDocumentChunks doc).filterMap (editForChunk doc)

/-- `editEntireDocument` from the legacy extension entry point: a
zero-line document bails out (no edits); otherwise the whole document is
replaced by the callback's output. -/
def editEntireDocument (cb : String → String) (doc : List String) :
    Option (List TextEdit) :=
  if doc.length = 0 then none
  else some [⟨0, doc.length - 1, cb (String.intercalate "\n" doc)⟩]

/-- `getSubjectLineSelection`: the range of the Subject chunk, falling
back to `document.lineAt(0).range`.  The fallback is modelled as `none`
when line 0 does not exist (a zero-line document), where the original
would fail its line lookup. -/
def getSubjectLineSelection (doc : List String) : Option (Nat × Nat) :=
  match (getDocumentChunks doc).find? (fun c => c.kind = GitChunkKind.Subject) with
  | some c => some (c.startLine, c.endLine)
  | none => if 0 < doc.length then some (0, 0) else none

/-! ## The legacy whole-document string formatter

This is the string-based `formatGitCommitMessage` (the variant whose
`REGEX_SPLIT = /^\s*(#|$)/g` carries the *global* flag).  A global regex
used with `.test()` keeps its `lastIndex` between calls: a successful
match sets `lastIndex` to the end of the match, a failed attempt resets it
to `0`, and when `lastIndex > 0` the `^`-anchored (non-multiline) pattern
can never match again until it is reset.  The `lastIndex` is modelled as
an explicit `Nat` threaded through every `.test()` call; it survives from
one invocation of the formatter to the next, exactly like the module-level
regex object of the original. -/

/-- The length of the match of `/^\s*(#|$)/` against `s` starting at
position 0, if any: the leading-whitespace run plus one for `#`, or the
whole (all-whitespace) string for the `$` alternative. -/
def splitMatchLen (s : String) : Option Nat :=
  let ws := (s.data.takeWhile isJsWhitespace).length
  if ws = s.data.length then some ws
  else if s.data.getD ws ' ' = '#' then some (ws + 1)
  else none

/-- `REGEX_SPLIT.test(s)` for the *global* regex: returns the test result
and the new `lastIndex`.  With `lastIndex > 0` the `^` anchor can never
match, the test fails and `lastIndex` resets to 0. -/
def jsSplitTestG (s : String) (li : Nat) : Bool × Nat :=
  if li = 0 then
    match splitMatchLen s with
    | some len => (true, len)
    | none => (false, 0)
  else (false, 0)

/-- `String.prototype.trim()`. -/
def jsTrimStr (s : String) : String :=
  String.mk (jsTrim s.data)

/-- `formatSubjectLine` of the legacy formatter (identical body to
`formatSubjectChunk`). -/
def formatSubjectLine (s : String) : String :=
  String.mk (jsTrim (collapseWs s.data))

/-- `wrapMessageParagraph` of the legacy formatter (identical body to
`formatParagraphChunk`). -/
def wrapMessageParagraph (s : String) : String :=
  String.mk (wrapScan (jsTrim (collapseWs s.data)))

/-- `text.split("\n")` on a character list (structural helper). -/
def splitNlChars : List Char → List (List Char)
  | [] => [[]]
  | c :: rest =>
    match splitNlChars rest with
    | [] => [[c]]
    | h :: t => if c = '\n' then [] :: h :: t else (c :: h) :: t

/-- `text.split("\n")`. -/
def jsSplitNl (s : String) : List String :=
  (splitNlChars s.data).map String.mk

/-- The first loop of the legacy formatter: group consecutive
non-comment/non-blank lines into a buffer, flushing `buffer` and the
splitting line whenever `REGEX_SPLIT.test(line)` fires.  State is
`(formatLines, buffer, lastIndex)`. -/
def legacySplitLoop : List String → List String × String × Nat → List String × String × Nat
  | [], st => st
  | l :: rest, (fl, buf, li) =>
    let (m, li') := jsSplitTestG l li
    if m then legacySplitLoop rest (fl ++ [buf, l], "", li')
    else legacySplitLoop rest (fl, buf ++ l ++ "\n", li')

/-- The second loop of the legacy formatter: comment lines are trimmed,
the first non-comment entry becomes the subject, later ones are wrapped.
State is `(hadSubjectLine, lastIndex)`. -/
def legacyMapLoop : List String → Bool → Nat → List String × Nat
  | [], _, li => ([], li)
  | l :: rest, had, li =>
    let (m, li') := jsSplitTestG l li
    if m then
      let (out, li2) := legacyMapLoop rest had li'
      (jsTrimStr l :: out, li2)
    else if !had then
      let (out, li2) := legacyMapLoop rest true li'
      (formatSubjectLine l :: out, li2)
    else
      let (out, li2) := legacyMapLoop rest had li'
      (wrapMessageParagraph l :: out, li2)

/-- `REGEX_NEWLINES = /\n\n\n*/g` replaced by `'\n\n'`: every maximal run
of two or more newlines collapses to exactly two.  `run` counts the
newlines of the current run that have been emitted (capped at 2). -/
def collapseNlAux : List Char → Nat → List Char
  | [], _ => []
  | c :: rest, run =>
    if c = '\n' then
      if run < 2 then '\n' :: collapseNlAux rest (run + 1)
      else collapseNlAux rest run
    else c :: collapseNlAux rest 0

/-- `.replace(/\n\n\n*/g, '\n\n')`. -/
def collapseNewlines (cs : List Char) : List Char :=
  collapseNlAux cs 0

/-- The legacy whole-document `formatGitCommitMessage`.  `li` is the
`lastIndex` of the shared `REGEX_SPLIT` object when the call starts; the
result is the output text together with the `lastIndex` left behind for
the next call. -/
def legacyFormatGitCommitMessage (text : String) (li : Nat) : String × Nat :=
  let (fl, buf, li1) := legacySplitLoop (jsSplitNl text) ([], "", li)
  let fl := if buf.length > 0 then fl ++ [buf] else fl
  let (out, li2) := legacyMapLoop fl false li1
  (String.mk (collapseNewlines (String.intercalate "\n" out).data), li2)

/-! ## Properties of collapsing, trimming and wrapping (towards C5) -/

/-- Replacing the inserted line breaks by spaces again. -/
def unbreakChar (c : Char) : Char :=
  if c = '\n' then ' ' else c

/-- Every whitespace character of the list is a plain space. -/
def WsIsSpace (cs : List Char) : Prop :=
  ∀ c ∈ cs, isJsWhitespace c = true → c = ' '

/-- Adjacent-character relation: no space directly follows a space. -/
def SpaceSep (a b : Char) : Prop :=
  a = ' ' → b ≠ ' '

/-- The first character (if any) is not whitespace. -/
def HeadNoWs (cs : List Char) : Prop :=
  ∀ c ∈ cs.head?, isJsWhitespace c = false

/-- The position and group length of the first match of the wrap regex in
`cs`, scanning from the left as the `replace` loop does. -/
def firstWrapMatch : List Char → Option (Nat × Nat)
  | [] => none
  | c :: rest =>
    match wrapMatchAt (c :: rest) with
    | some k => some (0, k)
    | none => (firstWrapMatch rest).map (fun p => (p.1 + 1, p.2))

/-! ## The chunking loop invariant (towards C2, C3, C4, C10) -/

/-- The text of line `i` of the document (`""` out of range). -/
def lineAt (doc : List String) (i : Nat) : String :=
  doc.getD i ""

/-- Was a cut line seen among the lines before line `m`? -/
def cutBefore (doc : List String) (m : Nat) : Bool :=
  (doc.take m).any isCutLine

/-- The diff trigger at line `m`: a cut line occurred earlier and line `m`
does not match the comment pattern. -/
def trigAt (doc : List String) (m : Nat) : Bool :=
  cutBefore doc m && !isSplitLine (lineAt doc m)

/-- Has the diff trigger fired at some line before line `k`? -/
def trigBefore (doc : List String) (k : Nat) : Bool :=
  (List.range k).any (trigAt doc)

/-- Contiguity of consecutive chunks. -/
def contigRel (a b : Chunk) : Prop :=
  a.endLine + 1 = b.startLine

/-- The number of Subject chunks. -/
def countSubject (cs : List Chunk) : Nat :=
  cs.countP (fun c => c.kind = GitChunkKind.Subject)

/-- Relation between consecutive states of the `getDocumentChunks` loop
and the prefix of the document processed so far. -/
structure Inv (doc : List String) (k : Nat) (s : ChunkState) : Prop where
  init0 : k = 0 → s = initState
  hInit : s.hadInitialLine = decide (0 < k)
  hCut : s.hadCutLine = cutBefore doc k
  hDiff : s.areInDiff = trigBefore doc k
  ne : s.chunks ≠ []
  head0 : ∀ c, s.chunks.head? = some c → c.startLine = 0
  lastEnd : ∀ c, s.chunks.getLast? = some c → c.endLine = k - 1
  chain : List.Chain' contigRel s.chunks
  wf : ∀ c ∈ s.chunks, c.startLine ≤ c.endLine
  endB : ∀ c ∈ s.chunks, c.endLine ≤ k - 1
  lastK : ∀ c, s.chunks.getLast? = some c →
    c.kind = s.lastKind ∨
      (s.lastKind = GitChunkKind.Paragraph ∧ c.kind = GitChunkKind.Subject)
  lkNS : s.lastKind ≠ GitChunkKind.Subject
  lkP : s.lastKind = GitChunkKind.Paragraph → s.hadSubjectLine = true
  subj : s.hadSubjectLine = s.chunks.any (fun c => c.kind = GitChunkKind.Subject)
  subjCount : countSubject s.chunks ≤ 1
  subjPos : ∀ c ∈ s.chunks, c.kind = GitChunkKind.Subject →
    isSplitLine (lineAt doc c.startLine) = false ∧
      ∀ j < c.startLine, isSplitLine (lineAt doc j) = true
  noSubj : s.hadSubjectLine = false →
    ∀ j < k, isSplitLine (lineAt doc j) = true ∨ trigBefore doc (j + 1) = true
  noDiff : trigBefore doc k = false → ∀ c ∈ s.chunks, c.kind ≠ GitChunkKind.Diff
  diffAll : ∀ c ∈ s.chunks, ∀ m < k, trigAt doc m = true → m ≤ c.endLine →
    c.kind = GitChunkKind.Diff
  noBlank : ∀ c ∈ s.chunks,
    (c.kind = GitChunkKind.Paragraph ∨ c.kind = GitChunkKind.Subject) →
    ∀ l, c.startLine ≤ l → l ≤ c.endLine → isBlankLine (lineAt doc l) = false
  noTr : ∀ c ∈ s.chunks, c.kind ≠ GitChunkKind.Trailers

/-- The concrete document of the C3 witness. -/
def docDiffExample : List String :=
  ["subject", "# ------------------------ >8 ------------------------",
   "diff --git a b"]

/-! ## Claim C10: text chunks never contain blank lines -/

/-- The trailer scan with the continuation branch removed. -/
def trailersScanNoCont : List String → Bool → Nat → Nat → Bool
  | [], recognized, trailers, nonTrailers =>
    decide (nonTrailers = 0 ∧ 0 < trailers) ||
      (recognized && decide (nonTrailers ≤ 3 * trailers))
  | t :: rest, recognized, trailers, nonTrailers =>
    if isTrailerLine t then
      trailersScanNoCont rest recognized (trailers + 1) nonTrailers
    else if !recognized then false
    else trailersScanNoCont rest recognized trailers (nonTrailers + 1)

/-- `isTrailersChunk` with the continuation branch removed. -/
def isTrailersNoCont (ls : List String) : Bool :=
  match ls with
  | [] => trailersScanNoCont [] false 0 0
  | first :: rest =>
    if hasGitGeneratedStart first then trailersScanNoCont rest true 1 0
    else trailersScanNoCont (first :: rest) false 0 0

/-- Modelled from the spec: total accumulation of
`(trailerCount, nonTrailerCount)` over the lines after the first-line
marker check, with the continuation-line rule of §4.3. -/
def specScoreAux : List String → Nat → Nat → Bool → Nat × Nat
  | [], t, n, _ => (t, n)
  | l :: rest, t, n, pc =>
    if pc && isTrailerCont l then specScoreAux rest t n pc
    else if isTrailerLine l then specScoreAux rest (t + 1) n true
    else specScoreAux rest t (n + 1) false

/-- Modelled from the spec: the full score
`(trailerCount, nonTrailerCount, recognizedPrefix)` of a chunk's lines. -/
def specScore (ls : List String) : Nat × Nat × Bool :=
  match ls with
  | [] => (0, 0, false)
  | first :: rest =>
    if hasGitGeneratedStart first then
      ((specScoreAux rest 1 0 false).1, (specScoreAux rest 1 0 false).2, true)
    else
      ((specScoreAux (first :: rest) 0 0 false).1,
       (specScoreAux (first :: rest) 0 0 false).2, false)

/-- Modelled from the spec: the decision rule after the scan. -/
def specIsTrailersChunk (ls : List String) : Bool :=
  decide ((specScore ls).2.1 = 0 ∧ 0 < (specScore ls).1) ||
  ((specScore ls).2.2 && decide (3 * (specScore ls).1 ≥ (specScore ls).2.1))

/-- Modelled from the spec: the reclassification of the last Paragraph
chunk using the spec's decision rule. -/
def specReclassifyLast (doc : List String) (cs : List Chunk) : List Chunk :=
  match lastParagraphIdx cs with
  | none => cs
  | some i =>
    let c := cs.getD i default
    if specIsTrailersChunk (chunkLines doc c) then
      cs.set i { c with kind := GitChunkKind.Trailers }
    else cs

/-- The document of the spec's "three prose lines" trailer example. -/
def docSignedThreeProse : List String :=
  ["subject", "", "Signed-off-by: A <a@x.com>",
   "this is prose", "more prose here", "even more prose"]

/-- The document of the spec's "four prose lines" trailer example. -/
def docSignedFourProse : List String :=
  ["subject", "", "Signed-off-by: A <a@x.com>",
   "this is prose", "more prose here", "even more prose", "extra prose line"]

/-! ## Auxiliary definitions used by the claim statements -/

/-- The chunk kinds for which `formatGitCommitMessage` emits an edit. -/
def isEditedKind (k : GitChunkKind) : Bool :=
  k = GitChunkKind.Subject || k = GitChunkKind.Paragraph ||
  k = GitChunkKind.Trailers || k = GitChunkKind.Blank

/-- The replacement text `formatGitCommitMessage` uses for an edited
chunk: formatted subject, wrapped paragraph, the chunk's own text for
Trailers, and the empty string for Blank. -/
def replacementFor (doc : List String) (c : Chunk) : String :=
  match c.kind with
  | GitChunkKind.Subject => formatSubjectChunk (chunkText doc c)
  | GitChunkKind.Paragraph => formatParagraphChunk (chunkText doc c)
  | GitChunkKind.Trailers => chunkText doc c
  | GitChunkKind.Blank => ""
  | _ => ""

/-- The concrete document of the C7 counterexample: a subject, a blank
line, and a pure trailer paragraph. -/
def docWithTrailers : List String :=
  ["subject", "", "Signed-off-by: A <a@x.com>"]

theorem WsIsSpace.no_nl {cs : List Char} (h : WsIsSpace cs) :
    ∀ c ∈ cs, c ≠ '\n' := by
  intro c hc heq
  subst heq
  have := h _ hc (by decide)
  exact absurd this (by decide)

theorem collapseWsAux_wsIsSpace : ∀ (cs : List Char) (b : Bool),
    WsIsSpace (collapseWsAux cs b) := by
  intro cs
  induction cs with
  | nil => intro b c hc; simp [collapseWsAux] at hc
  | cons c rest ih =>
    intro b x hx hws
    unfold collapseWsAux at hx
    by_cases h1 : isJsWhitespace c = true
    · simp only [h1, if_true] at hx
      cases b with
      | true => exact ih true x hx hws
      | false =>
        simp only [Bool.false_eq_true, if_false] at hx
        rcases List.mem_cons.mp hx with h | h
        · exact h
        · exact ih true x h hws
    · simp only [h1, if_false] at hx
      rcases List.mem_cons.mp hx with h | h
      · subst h; exact absurd hws (by simp [h1])
      · exact ih false x h hws

theorem collapseWsAux_true_head :
    ∀ (cs : List Char) (c : Char),
      (collapseWsAux cs true).head? = some c → isJsWhitespace c = false := by
  intro cs
  induction cs with
  | nil => intro c hc; simp [collapseWsAux] at hc
  | cons x rest ih =>
    intro c hc
    unfold collapseWsAux at hc
    by_cases h1 : isJsWhitespace x = true
    · rw [if_pos h1] at hc
      exact ih c (by simpa using hc)
    · rw [if_neg h1] at hc
      simp only [List.head?_cons, Option.some.injEq] at hc
      subst hc
      simpa using h1

theorem collapseWsAux_chain : ∀ (cs : List Char) (b : Bool),
    List.Chain' SpaceSep (collapseWsAux cs b) := by
  intro cs
  induction cs with
  | nil => intro b; simp [collapseWsAux]
  | cons c rest ih =>
    intro b
    unfold collapseWsAux
    by_cases h1 : isJsWhitespace c = true
    · simp only [h1, if_true]
      cases b with
      | true => exact ih true
      | false =>
        simp only [Bool.false_eq_true, if_false]
        refine List.chain'_cons'.mpr ⟨?_, ih true⟩
        intro y hy
        intro _
        intro hy'
        subst hy'
        have := collapseWsAux_true_head rest ' ' hy
        exact absurd this (by decide)
    · simp only [h1, if_false]
      refine List.chain'_cons'.mpr ⟨?_, ih false⟩
      intro y _ hc
      exfalso
      apply h1
      rw [hc]
      decide

theorem collapseWs_wsIsSpace (cs : List Char) : WsIsSpace (collapseWs cs) :=
  collapseWsAux_wsIsSpace cs false

theorem collapseWs_chain (cs : List Char) : List.Chain' SpaceSep (collapseWs cs) :=
  collapseWsAux_chain cs false

theorem head?_dropWhile_not {p : Char → Bool} :
    ∀ (l : List Char) (c : Char), (l.dropWhile p).head? = some c → p c = false := by
  intro l
  induction l with
  | nil => intro c hc; simp [List.dropWhile] at hc
  | cons x rest ih =>
    intro c hc
    rw [List.dropWhile_cons] at hc
    by_cases h1 : p x = true
    · rw [if_pos h1] at hc
      exact ih c hc
    · rw [if_neg h1] at hc
      simp only [List.head?_cons, Option.some.injEq] at hc
      subst hc
      simpa using h1

/-- Splitting a list at the whitespace run at its end. -/
theorem rev_take_drop_decomp (p : Char → Bool) (l : List Char) :
    l = (l.reverse.dropWhile p).reverse ++ (l.reverse.takeWhile p).reverse := by
  conv_lhs =>
    rw [← List.reverse_reverse l,
        ← List.takeWhile_append_dropWhile (p := p) (l := l.reverse)]
  rw [List.reverse_append]

/-- `jsTrim cs` is the front of the whitespace-trimmed-at-front list. -/
theorem jsTrim_eq_append (cs : List Char) :
    cs.dropWhile isJsWhitespace =
      jsTrim cs ++
        ((cs.dropWhile isJsWhitespace).reverse.takeWhile isJsWhitespace).reverse :=
  rev_take_drop_decomp isJsWhitespace (cs.dropWhile isJsWhitespace)

/-- `jsTrim cs` arises from `cs` by removing a whitespace run at each end:
`cs = front ++ jsTrim cs ++ back`. -/
theorem jsTrim_decomp (cs : List Char) :
    ∃ front back, cs = front ++ (jsTrim cs ++ back) := by
  obtain ⟨front, hfront⟩ := (List.dropWhile_suffix (l := cs) isJsWhitespace)
  refine ⟨front, ((cs.dropWhile isJsWhitespace).reverse.takeWhile isJsWhitespace).reverse, ?_⟩
  rw [← jsTrim_eq_append, hfront]

theorem jsTrim_subset (cs : List Char) : ∀ c ∈ jsTrim cs, c ∈ cs := by
  intro c hc
  obtain ⟨front, back, hdec⟩ := jsTrim_decomp cs
  rw [hdec]
  simp only [List.mem_append]
  exact Or.inr (Or.inl hc)

theorem jsTrim_wsIsSpace {cs : List Char} (h : WsIsSpace cs) :
    WsIsSpace (jsTrim cs) :=
  fun c hc hws => h c (jsTrim_subset cs c hc) hws

theorem jsTrim_chain {cs : List Char} (h : List.Chain' SpaceSep cs) :
    List.Chain' SpaceSep (jsTrim cs) := by
  have h1 : List.Chain' SpaceSep (cs.dropWhile isJsWhitespace) := by
    obtain ⟨front, hfront⟩ := (List.dropWhile_suffix (l := cs) isJsWhitespace)
    rw [← hfront] at h
    exact (List.chain'_append.mp h).2.1
  rw [jsTrim_eq_append cs] at h1
  exact (List.chain'_append.mp h1).1

theorem jsTrim_headNoWs (cs : List Char) : HeadNoWs (jsTrim cs) := by
  intro c hc
  cases hjs : jsTrim cs with
  | nil => rw [hjs] at hc; simp at hc
  | cons x rest =>
    rw [hjs] at hc
    simp only [List.head?_cons, Option.mem_def, Option.some.injEq] at hc
    subst hc
    apply head?_dropWhile_not cs
    rw [jsTrim_eq_append cs, hjs]
    rfl

theorem findWrapK_nil : ∀ m : Nat, findWrapK [] m = none := by
  intro m
  induction m with
  | zero => rfl
  | succ m ih =>
    unfold findWrapK
    simp only [List.get?_nil]
    exact ih

theorem wrapMatchAt_nil : wrapMatchAt [] = none := by
  unfold wrapMatchAt
  simp [findWrapK_nil]

theorem findWrapK_some {cs : List Char} :
    ∀ {m k : Nat}, findWrapK cs m = some k →
      1 ≤ k ∧ k ≤ m ∧ ((cs.take k).all (· ≠ '\n') = true) ∧
        ∃ w, cs.get? k = some w ∧ isJsWhitespace w = true := by
  intro m
  induction m with
  | zero => intro k h; exact absurd h (by simp [findWrapK])
  | succ m ih =>
    intro k h
    unfold findWrapK at h
    by_cases hc : ((cs.take (m + 1)).all (· ≠ '\n') &&
        (match cs.get? (m + 1) with
         | some w => isJsWhitespace w
         | none => false)) = true
    · rw [if_pos hc] at h
      cases h
      refine ⟨Nat.succ_le_succ (Nat.zero_le m), Nat.le_refl _, ?_, ?_⟩
      · exact (Bool.and_eq_true_iff.mp hc).1
      · have h2 := (Bool.and_eq_true_iff.mp hc).2
        cases hget : cs.get? (m + 1) with
        | none => rw [hget] at h2; simp at h2
        | some w => rw [hget] at h2; exact ⟨w, rfl, h2⟩
    · rw [if_neg hc] at h
      obtain ⟨h1, h2, h3, h4⟩ := ih h
      exact ⟨h1, Nat.le_succ_of_le h2, h3, h4⟩

theorem findWrapK_none {cs : List Char} :
    ∀ {m : Nat}, findWrapK cs m = none →
      ∀ k, 1 ≤ k → k ≤ m → ((cs.take k).all (· ≠ '\n') = true) →
        ∀ w, cs.get? k = some w → isJsWhitespace w = false := by
  intro m
  induction m with
  | zero => intro _ k hk1 hk2 _ _ _; omega
  | succ m ih =>
    intro h k hk1 hk2 htake w hw
    unfold findWrapK at h
    by_cases hc : ((cs.take (m + 1)).all (· ≠ '\n') &&
        (match cs.get? (m + 1) with
         | some w => isJsWhitespace w
         | none => false)) = true
    · rw [if_pos hc] at h; exact absurd h (by simp)
    · rw [if_neg hc] at h
      rcases Nat.lt_or_ge k (m + 1) with hlt | hge
      · exact ih h k hk1 (Nat.lt_succ_iff.mp hlt) htake w hw
      · have hk : k = m + 1 := Nat.le_antisymm hk2 hge
        subst hk
        by_contra hws
        apply hc
        rw [Bool.and_eq_true_iff]
        refine ⟨htake, ?_⟩
        rw [hw]
        simpa using hws

theorem wrapMatchAt_some_props {cs : List Char} {k : Nat}
    (h : wrapMatchAt cs = some k) :
    1 ≤ k ∧ k ≤ 72 ∧ ∃ w, cs.get? k = some w ∧ isJsWhitespace w = true := by
  unfold wrapMatchAt at h
  by_cases hg : (1 ≤ cs.length && cs.length ≤ 72 && cs.all (· ≠ '\n')) = true
  · rw [if_pos hg] at h; exact absurd h (by simp)
  · rw [if_neg hg] at h
    obtain ⟨h1, h2, _, h4⟩ := findWrapK_some h
    exact ⟨h1, h2, h4⟩

theorem wrapMatchAt_some_length {cs : List Char} {k : Nat}
    (hnl : ∀ c ∈ cs, c ≠ '\n') (h : wrapMatchAt cs = some k) :
    72 < cs.length := by
  unfold wrapMatchAt at h
  by_cases hg : (1 ≤ cs.length && cs.length ≤ 72 && cs.all (· ≠ '\n')) = true
  · rw [if_pos hg] at h; exact absurd h (by simp)
  · rw [if_neg hg] at h
    have hall : cs.all (· ≠ '\n') = true := by
      rw [List.all_eq_true]
      intro c hc
      simpa using hnl c hc
    obtain ⟨_, _, _, w, hw, _⟩ := findWrapK_some h
    have hklen : k < cs.length := by
      by_contra hge
      rw [List.get?_len_le (Nat.le_of_not_lt hge)] at hw
      exact absurd hw (by simp)
    have hlen0 : 0 < cs.length := Nat.lt_of_le_of_lt (Nat.zero_le k) hklen
    by_contra hle
    apply hg
    simp only [Bool.and_eq_true_iff, decide_eq_true_eq]
    exact ⟨⟨hlen0, Nat.le_of_not_lt hle⟩, hall⟩

theorem wrapMatchAt_none_no_ws {cs : List Char}
    (h : wrapMatchAt cs = none) (hnl : ∀ c ∈ cs, c ≠ '\n')
    (hlen : 72 < cs.length) :
    ∀ k, 1 ≤ k → k ≤ 72 → ∀ w, cs.get? k = some w → isJsWhitespace w = false := by
  intro k hk1 hk2 w hw
  unfold wrapMatchAt at h
  have hg : ¬ ((1 ≤ cs.length && cs.length ≤ 72 && cs.all (· ≠ '\n')) = true) := by
    simp only [Bool.and_eq_true_iff, decide_eq_true_eq]
    rintro ⟨⟨_, h72⟩, _⟩
    omega
  rw [if_neg hg] at h
  have htake : (cs.take k).all (· ≠ '\n') = true := by
    rw [List.all_eq_true]
    intro c hc
    simpa using hnl c (List.take_subset k cs hc)
  exact findWrapK_none h k hk1 hk2 htake w hw

theorem firstWrapMatch_none_drop {cs : List Char}
    (h : firstWrapMatch cs = none) : ∀ j, wrapMatchAt (cs.drop j) = none := by
  induction cs with
  | nil => intro j; rw [List.drop_nil]; exact wrapMatchAt_nil
  | cons c rest ih =>
    intro j
    unfold firstWrapMatch at h
    cases hm : wrapMatchAt (c :: rest) with
    | some k => rw [hm] at h; exact absurd h (by simp)
    | none =>
      rw [hm] at h
      simp only [Option.map_eq_none'] at h
      cases j with
      | zero => exact hm
      | succ j => rw [List.drop_succ_cons]; exact ih h j

theorem firstWrapMatch_some_props :
    ∀ (cs : List Char) (i k : Nat), firstWrapMatch cs = some (i, k) →
      wrapMatchAt (cs.drop i) = some k ∧ ∀ j < i, wrapMatchAt (cs.drop j) = none := by
  intro cs
  induction cs with
  | nil => intro i k h; exact absurd h (by simp [firstWrapMatch])
  | cons c rest ih =>
    intro i k h
    unfold firstWrapMatch at h
    cases hm : wrapMatchAt (c :: rest) with
    | some k0 =>
      rw [hm] at h
      simp only [Option.some.injEq, Prod.mk.injEq] at h
      obtain ⟨hi, hk⟩ := h
      subst hi; subst hk
      exact ⟨hm, fun j hj => absurd hj (Nat.not_lt_zero j)⟩
    | none =>
      rw [hm] at h
      cases hrest : firstWrapMatch rest with
      | none => rw [hrest] at h; exact absurd h (by simp)
      | some p =>
        rw [hrest] at h
        simp only [Option.map_some', Option.some.injEq, Prod.mk.injEq] at h
        obtain ⟨hi, hk⟩ := h
        rw [← hi, ← hk]
        obtain ⟨hmi, hnone⟩ := ih p.1 p.2 hrest
        constructor
        · rw [List.drop_succ_cons]; exact hmi
        · intro j hj
          cases j with
          | zero => exact hm
          | succ j =>
            rw [List.drop_succ_cons]
            exact hnone j (Nat.lt_of_succ_lt_succ hj)

theorem wrapScanF_cons_eq (fuel : Nat) (c : Char) (rest : List Char) :
    wrapScanF (fuel + 1) (c :: rest) =
      match wrapMatchAt (c :: rest) with
      | some k => (c :: rest).take k ++ '\n' :: wrapScanF fuel ((c :: rest).drop (k + 1))
      | none => c :: wrapScanF fuel rest := rfl

theorem wrapScanF_fuel :
    ∀ (f1 f2 : Nat) (cs : List Char), cs.length ≤ f1 → cs.length ≤ f2 →
      wrapScanF f1 cs = wrapScanF f2 cs := by
  intro f1
  induction f1 with
  | zero =>
    intro f2 cs h1 _
    have : cs = [] := List.eq_nil_of_length_eq_zero (Nat.le_zero.mp h1)
    subst this
    cases f2 <;> rfl
  | succ f1 ih =>
    intro f2 cs h1 h2
    cases cs with
    | nil => cases f2 <;> rfl
    | cons c rest =>
      cases f2 with
      | zero => exact absurd h2 (by simp)
      | succ f2 =>
        rw [wrapScanF_cons_eq f1, wrapScanF_cons_eq f2]
        cases hm : wrapMatchAt (c :: rest) with
        | some k =>
          simp only [hm]
          have hd1 : ((c :: rest).drop (k + 1)).length ≤ f1 := by
            rw [List.length_drop]
            simp only [List.length_cons] at h1 ⊢
            omega
          have hd2 : ((c :: rest).drop (k + 1)).length ≤ f2 := by
            rw [List.length_drop]
            simp only [List.length_cons] at h2 ⊢
            omega
          rw [ih f2 _ hd1 hd2]
        | none =>
          simp only [hm]
          have hr1 : rest.length ≤ f1 := by
            simp only [List.length_cons] at h1; omega
          have hr2 : rest.length ≤ f2 := by
            simp only [List.length_cons] at h2; omega
          rw [ih f2 rest hr1 hr2]

theorem wrapScanF_of_none :
    ∀ (fuel : Nat) (cs : List Char), cs.length ≤ fuel →
      firstWrapMatch cs = none → wrapScanF fuel cs = cs := by
  intro fuel
  induction fuel with
  | zero => intro cs _ _; rfl
  | succ fuel ih =>
    intro cs hlen hf
    cases cs with
    | nil => rfl
    | cons c rest =>
      unfold firstWrapMatch at hf
      cases hm : wrapMatchAt (c :: rest) with
      | some k => rw [hm] at hf; exact absurd hf (by simp)
      | none =>
        rw [hm] at hf
        simp only [Option.map_eq_none'] at hf
        rw [wrapScanF_cons_eq]
        simp only [hm]
        have : rest.length ≤ fuel := by
          simp only [List.length_cons] at hlen; omega
        rw [ih rest this hf]

theorem wrapScan_of_none {cs : List Char} (hf : firstWrapMatch cs = none) :
    wrapScan cs = cs :=
  wrapScanF_of_none cs.length cs (Nat.le_refl _) hf

theorem wrapScan_of_some :
    ∀ (cs : List Char) (i k : Nat), firstWrapMatch cs = some (i, k) →
      wrapScan cs = cs.take (i + k) ++ '\n' :: wrapScan (cs.drop (i + k + 1)) := by
  intro cs
  induction cs with
  | nil => intro i k h; exact absurd h (by simp [firstWrapMatch])
  | cons c rest ih =>
    intro i k h
    unfold firstWrapMatch at h
    cases hm : wrapMatchAt (c :: rest) with
    | some k0 =>
      rw [hm] at h
      simp only [Option.some.injEq, Prod.mk.injEq] at h
      obtain ⟨hi, hk⟩ := h
      subst hi; subst hk
      have step : wrapScan (c :: rest) =
          (c :: rest).take k0 ++
            '\n' :: wrapScanF rest.length ((c :: rest).drop (k0 + 1)) := by
        unfold wrapScan
        rw [List.length_cons, wrapScanF_cons_eq]
        simp only [hm]
      rw [step]
      have hlen : ((c :: rest).drop (k0 + 1)).length ≤ rest.length := by
        rw [List.length_drop]
        simp only [List.length_cons]
        omega
      rw [wrapScanF_fuel rest.length ((c :: rest).drop (k0 + 1)).length _ hlen (Nat.le_refl _)]
      simp only [Nat.zero_add]
      rfl
    | none =>
      rw [hm] at h
      cases hrest : firstWrapMatch rest with
      | none => rw [hrest] at h; exact absurd h (by simp)
      | some p =>
        rw [hrest] at h
        simp only [Option.map_some', Option.some.injEq, Prod.mk.injEq] at h
        obtain ⟨hi, hk⟩ := h
        rw [← hi, ← hk]
        have step : wrapScan (c :: rest) = c :: wrapScan rest := by
          unfold wrapScan
          rw [List.length_cons, wrapScanF_cons_eq]
          simp only [hm]
        rw [step, ih p.1 p.2 hrest]
        have htake : (c :: rest).take (p.1 + 1 + p.2) = c :: rest.take (p.1 + p.2) := by
          rw [List.take_cons (by omega)]
          have harith : p.1 + 1 + p.2 - 1 = p.1 + p.2 := by omega
          rw [harith]
        have hdrop : (c :: rest).drop (p.1 + 1 + p.2 + 1) = rest.drop (p.1 + p.2 + 1) := by
          have heq : p.1 + 1 + p.2 + 1 = (p.1 + p.2 + 1) + 1 := by omega
          rw [heq, List.drop_succ_cons]
        rw [htake, hdrop]
        rfl

theorem splitNlChars_cons_eq (c : Char) (rest : List Char) :
    splitNlChars (c :: rest) =
      match splitNlChars rest with
      | [] => [[c]]
      | h :: t => if c = '\n' then [] :: h :: t else (c :: h) :: t := rfl

theorem splitNlChars_ne_nil : ∀ cs : List Char, splitNlChars cs ≠ [] := by
  intro cs
  induction cs with
  | nil => simp [splitNlChars]
  | cons c rest ih =>
    rw [splitNlChars_cons_eq]
    cases h : splitNlChars rest with
    | nil => exact absurd h ih
    | cons hd tl =>
      by_cases hc : c = '\n' <;> simp [hc]

theorem splitNlChars_no_nl {cs : List Char} (h : ∀ c ∈ cs, c ≠ '\n') :
    splitNlChars cs = [cs] := by
  induction cs with
  | nil => rfl
  | cons c rest ih =>
    rw [splitNlChars_cons_eq]
    rw [ih (fun x hx => h x (List.mem_cons_of_mem c hx))]
    have hc : c ≠ '\n' := h c (List.mem_cons_self c rest)
    simp [hc]

theorem splitNlChars_append_nl :
    ∀ (A B : List Char), (∀ c ∈ A, c ≠ '\n') →
      splitNlChars (A ++ '\n' :: B) = A :: splitNlChars B := by
  intro A
  induction A with
  | nil =>
    intro B _
    show splitNlChars ('\n' :: B) = [] :: splitNlChars B
    rw [splitNlChars_cons_eq]
    cases h : splitNlChars B with
    | nil => exact absurd h (splitNlChars_ne_nil B)
    | cons hd tl => simp
  | cons a A' ih =>
    intro B h
    show splitNlChars (a :: (A' ++ '\n' :: B)) = (a :: A') :: splitNlChars B
    rw [splitNlChars_cons_eq]
    rw [ih B (fun x hx => h x (List.mem_cons_of_mem a hx))]
    have ha : a ≠ '\n' := h a (List.mem_cons_self a A')
    simp [ha]

theorem no_ws_when_no_match {cs : List Char}
    (hf : firstWrapMatch cs = none) (hnl : ∀ c ∈ cs, c ≠ '\n')
    (hlen : 72 < cs.length) :
    ∀ p, 1 ≤ p → ∀ w, cs.get? p = some w → isJsWhitespace w = false := by
  intro p hp1 w hw
  have hdrop := firstWrapMatch_none_drop hf
  have hplen : p < cs.length := by
    by_contra hge
    rw [List.get?_len_le (Nat.le_of_not_lt hge)] at hw
    exact absurd hw (by simp)
  by_cases hple : p ≤ 72
  · have h0 : wrapMatchAt cs = none := by
      have := hdrop 0
      rwa [List.drop_zero] at this
    exact wrapMatchAt_none_no_ws h0 hnl hlen p hp1 hple w hw
  · have hlen_j : 72 < (cs.drop (p - 72)).length := by
      rw [List.length_drop]; omega
    have hget : (cs.drop (p - 72)).get? 72 = some w := by
      rw [List.get?_drop]
      have heq : p - 72 + 72 = p := by omega
      rw [heq]
      exact hw
    exact wrapMatchAt_none_no_ws (hdrop (p - 72))
      (fun c hc => hnl c (List.drop_subset _ cs hc)) hlen_j 72 (by omega) (by omega) w hget

theorem no_ws_before_first_match {cs : List Char} {i k : Nat}
    (hf : firstWrapMatch cs = some (i, k)) (hnl : ∀ c ∈ cs, c ≠ '\n')
    (hi : 1 ≤ i) :
    ∀ p, 1 ≤ p → p < i + 72 → ∀ w, cs.get? p = some w → isJsWhitespace w = false := by
  intro p hp1 hp2 w hw
  obtain ⟨hmi, hnone⟩ := firstWrapMatch_some_props cs i k hf
  have hnl_drop : ∀ j, ∀ c ∈ cs.drop j, c ≠ '\n' :=
    fun j c hc => hnl c (List.drop_subset j cs hc)
  have hlen : 72 < (cs.drop i).length := wrapMatchAt_some_length (hnl_drop i) hmi
  rw [List.length_drop] at hlen
  by_cases hple : p ≤ 72
  · have h0 : wrapMatchAt cs = none := by
      have := hnone 0 hi
      rwa [List.drop_zero] at this
    have hlen0 : 72 < cs.length := by omega
    exact wrapMatchAt_none_no_ws h0 hnl hlen0 p hp1 hple w hw
  · have hj : p - 72 < i := by omega
    have hlen_j : 72 < (cs.drop (p - 72)).length := by
      rw [List.length_drop]; omega
    have hget : (cs.drop (p - 72)).get? 72 = some w := by
      rw [List.get?_drop]
      have heq : p - 72 + 72 = p := by omega
      rw [heq]
      exact hw
    exact wrapMatchAt_none_no_ws (hnone (p - 72) hj) (hnl_drop (p - 72))
      hlen_j 72 (by omega) (by omega) w hget

theorem map_unbreak_no_nl {cs : List Char} (h : ∀ c ∈ cs, c ≠ '\n') :
    cs.map unbreakChar = cs := by
  induction cs with
  | nil => rfl
  | cons c rest ih =>
    rw [List.map_cons, ih (fun x hx => h x (List.mem_cons_of_mem c hx))]
    have hc : c ≠ '\n' := h c (List.mem_cons_self c rest)
    simp [unbreakChar, hc]

/-- The wrap scan only replaces (space) characters by line breaks: mapping
the breaks back to spaces restores the collapsed text. -/
theorem wrapScan_unbreak :
    ∀ (n : Nat) (cs : List Char), cs.length = n → WsIsSpace cs →
      (wrapScan cs).map unbreakChar = cs := by
  intro n
  induction n using Nat.strong_induction_on with
  | _ n ih =>
    intro cs hlen hws
    cases hf : firstWrapMatch cs with
    | none =>
      rw [wrapScan_of_none hf]
      exact map_unbreak_no_nl hws.no_nl
    | some p =>
      obtain ⟨hmi, _⟩ := firstWrapMatch_some_props cs p.1 p.2 (by rw [hf])
      obtain ⟨hk1, hk72, w, hw, hwws⟩ := wrapMatchAt_some_props hmi
      rw [List.get?_drop] at hw
      have hwsp : w = ' ' := hws w (List.get?_mem hw) hwws
      rw [wrapScan_of_some cs p.1 p.2 (by rw [hf])]
      rw [List.map_append, List.map_cons]
      have hnl := hws.no_nl
      have htake_id : (cs.take (p.1 + p.2)).map unbreakChar = cs.take (p.1 + p.2) :=
        map_unbreak_no_nl (fun c hc => hnl c (List.take_subset _ cs hc))
      have hub : unbreakChar '\n' = ' ' := rfl
      have hlt : p.1 + p.2 < cs.length := by
        by_contra hge
        rw [List.get?_len_le (Nat.le_of_not_lt hge)] at hw
        exact absurd hw (by simp)
      have hdroplen : (cs.drop (p.1 + p.2 + 1)).length < n := by
        rw [List.length_drop]; omega
      have hrec := ih _ hdroplen (cs.drop (p.1 + p.2 + 1)) rfl
        (fun c hc h => hws c (List.drop_subset _ cs hc) h)
      rw [htake_id, hub, hrec]
      conv_rhs => rw [← List.take_append_drop (p.1 + p.2) cs]
      congr 1
      rw [List.drop_eq_get_cons hlt]
      congr 1
      have hg := List.get?_eq_get hlt
      rw [hg] at hw
      injection hw with hw'
      rw [hw', hwsp]

/-- Every line of the wrap scan's output on a collapsed, trimmed text is
at most 72 characters long or consists entirely of non-whitespace (a
single unbreakable token). -/
theorem wrapScan_lines :
    ∀ (n : Nat) (cs : List Char), cs.length = n →
      WsIsSpace cs → List.Chain' SpaceSep cs → HeadNoWs cs →
      ∀ l ∈ splitNlChars (wrapScan cs),
        l.length ≤ 72 ∨ ∀ c ∈ l, isJsWhitespace c = false := by
  intro n
  induction n using Nat.strong_induction_on with
  | _ n ih =>
    intro cs hlen hws hch hhd l hl
    have hnl := hws.no_nl
    cases hf : firstWrapMatch cs with
    | none =>
      rw [wrapScan_of_none hf, splitNlChars_no_nl hnl] at hl
      simp only [List.mem_singleton] at hl
      subst hl
      by_cases h72 : l.length ≤ 72
      · exact Or.inl h72
      · refine Or.inr ?_
        intro c hc
        obtain ⟨q, hq⟩ := List.mem_iff_get?.mp hc
        cases q with
        | zero =>
          rw [List.get?_zero] at hq
          exact hhd c hq
        | succ q =>
          exact no_ws_when_no_match hf hnl (Nat.lt_of_not_le h72) (q + 1)
            (Nat.succ_le_succ (Nat.zero_le q)) c hq
    | some p =>
      rw [wrapScan_of_some cs p.1 p.2 (by rw [hf])] at hl
      obtain ⟨hmi, _⟩ := firstWrapMatch_some_props cs p.1 p.2 (by rw [hf])
      obtain ⟨hk1, hk72, w, hw0, hwws⟩ := wrapMatchAt_some_props hmi
      have hlen72 : 72 < (cs.drop p.1).length :=
        wrapMatchAt_some_length (fun c hc => hnl c (List.drop_subset _ cs hc)) hmi
      rw [List.length_drop] at hlen72
      rw [List.get?_drop] at hw0
      have htake_nl : ∀ c ∈ cs.take (p.1 + p.2), c ≠ '\n' :=
        fun c hc => hnl c (List.take_subset _ cs hc)
      rw [splitNlChars_append_nl _ _ htake_nl] at hl
      rcases List.mem_cons.mp hl with hl | hl
      · subst hl
        rcases Nat.eq_zero_or_pos p.1 with hi0 | hipos
        · refine Or.inl ?_
          rw [List.length_take, hi0]
          simp only [Nat.zero_add]
          exact le_trans (min_le_left _ _) hk72
        · refine Or.inr ?_
          intro c hc
          obtain ⟨q, hq⟩ := List.mem_iff_get?.mp hc
          obtain ⟨hqlen, _⟩ := List.get?_eq_some.mp hq
          rw [List.length_take] at hqlen
          have hqlt : q < p.1 + p.2 := lt_of_lt_of_le hqlen (min_le_left _ _)
          have hq' : cs.get? q = some c := by
            rw [← List.get?_take hqlt]
            exact hq
          cases q with
          | zero =>
            rw [List.get?_zero] at hq'
            exact hhd c hq'
          | succ q =>
            exact @no_ws_before_first_match cs _ _ (by rw [hf]) hnl hipos (q + 1)
              (Nat.succ_le_succ (Nat.zero_le q)) (by omega) c hq'
      · have hlt : p.1 + p.2 < cs.length := by omega
        have hdroplen : (cs.drop (p.1 + p.2 + 1)).length < n := by
          rw [List.length_drop]; omega
        have hws' : WsIsSpace (cs.drop (p.1 + p.2 + 1)) :=
          fun c hc h => hws c (List.drop_subset _ cs hc) h
        have hch' : List.Chain' SpaceSep (cs.drop (p.1 + p.2 + 1)) := by
          conv at hch => rw [← List.take_append_drop (p.1 + p.2 + 1) cs]
          exact (List.chain'_append.mp hch).2.1
        have hhd' : HeadNoWs (cs.drop (p.1 + p.2 + 1)) := by
          intro c hc
          rw [List.head?_drop, ← List.get?_eq_getElem?] at hc
          have hc' : cs.get? (p.1 + p.2 + 1) = some c := hc
          obtain ⟨hlt1, hgetc⟩ := List.get?_eq_some.mp hc'
          have hwsp : w = ' ' := hws w (List.get?_mem hw0) hwws
          obtain ⟨hltw, hgetw⟩ := List.get?_eq_some.mp hw0
          have hsep := List.chain'_iff_get.mp hch (p.1 + p.2) (by omega)
          have hcne : c ≠ ' ' :=
            fun hceq => (hsep (hgetw.trans hwsp)) (hgetc.trans hceq)
          by_contra hwsc
          have hceq : c = ' ' := hws c (List.get?_mem hc') (by simpa using hwsc)
          exact hcne hceq
        exact ih _ hdroplen _ rfl hws' hch' hhd' l hl

/-- Claim C5: for every input string, every line of the paragraph
formatter's output (whitespace collapse, trim, then the greedy wrap at
column 72) has length at most 72 except lines consisting of a single
unbreakable token (no whitespace at all); and line breaks are only ever
inserted in place of whitespace — turning every `'\n'` of the output back
into a space reproduces the collapsed, trimmed text exactly, so no token
is ever split. -/
theorem C5_wrap_width :
    ∀ text : String,
      (∀ l ∈ splitNlChars (formatParagraphChunk text).data,
        l.length ≤ 72 ∨ ∀ c ∈ l, isJsWhitespace c = false)
      ∧ (formatParagraphChunk text).data.map unbreakChar =
          jsTrim (collapseWs text.data) := by
  intro text
  have hws := jsTrim_wsIsSpace (collapseWs_wsIsSpace text.data)
  have hch := jsTrim_chain (collapseWs_chain text.data)
  have hhd := jsTrim_headNoWs (collapseWs text.data)
  have hdata : (formatParagraphChunk text).data =
      wrapScan (jsTrim (collapseWs text.data)) := rfl
  constructor
  · rw [hdata]
    exact wrapScan_lines _ _ rfl hws hch hhd
  · rw [hdata]
    exact wrapScan_unbreak _ _ rfl hws

/-- Claim C5 witness: the output of the paragraph formatter on
`"hello world"` is the single line `"hello world"`, which satisfies the
length bound. -/
theorem C5_wrap_width_witness :
    ("hello world".data.length ≤ 72 ∨
      ∀ c ∈ "hello world".data, isJsWhitespace c = false) :=
  (C5_wrap_width "hello world").1 "hello world".data (by decide)

theorem isCutLine_isSplit {t : String} (h : isCutLine t = true) :
    isSplitLine t = true := by
  have ht : t = "# ------------------------ >8 ------------------------" := by
    simpa [isCutLine] using h
  subst ht
  decide

theorem isCutLine_not_blank {t : String} (h : isCutLine t = true) :
    isBlankLine t = false := by
  have ht : t = "# ------------------------ >8 ------------------------" := by
    simpa [isCutLine] using h
  subst ht
  decide

theorem isBlankLine_isSplit {t : String} (h : isBlankLine t = true) :
    isSplitLine t = true := by
  unfold isBlankLine at h
  unfold isSplitLine
  have hd : t.data.dropWhile isJsWhitespace = [] := by
    rw [List.dropWhile_eq_nil_iff]
    intro x hx
    exact (List.all_eq_true.mp h) x hx
  rw [hd]

theorem rawKind_ne_subject (t : String) : rawKind t ≠ GitChunkKind.Subject := by
  unfold rawKind
  by_cases h1 : isBlankLine t = true
  · rw [if_pos h1]; decide
  · rw [if_neg h1]
    by_cases h2 : isSplitLine t = true
    · rw [if_pos h2]; decide
    · rw [if_neg h2]; decide

theorem rawKind_ne_diff (t : String) : rawKind t ≠ GitChunkKind.Diff := by
  unfold rawKind
  by_cases h1 : isBlankLine t = true
  · rw [if_pos h1]; decide
  · rw [if_neg h1]
    by_cases h2 : isSplitLine t = true
    · rw [if_pos h2]; decide
    · rw [if_neg h2]; decide

theorem rawKind_ne_trailers (t : String) : rawKind t ≠ GitChunkKind.Trailers := by
  unfold rawKind
  by_cases h1 : isBlankLine t = true
  · rw [if_pos h1]; decide
  · rw [if_neg h1]
    by_cases h2 : isSplitLine t = true
    · rw [if_pos h2]; decide
    · rw [if_neg h2]; decide

theorem rawKind_paragraph_iff (t : String) :
    rawKind t = GitChunkKind.Paragraph ↔ isSplitLine t = false := by
  unfold rawKind
  by_cases h1 : isBlankLine t = true
  · rw [if_pos h1]
    have := isBlankLine_isSplit h1
    constructor
    · intro h; exact absurd h (by decide)
    · intro h; rw [this] at h; exact absurd h (by simp)
  · rw [if_neg h1]
    by_cases h2 : isSplitLine t = true
    · rw [if_pos h2]
      constructor
      · intro h; exact absurd h (by decide)
      · intro h; rw [h2] at h; exact absurd h (by simp)
    · rw [if_neg h2]
      simpa using Bool.eq_false_iff.mpr h2

theorem rawKind_blank_iff (t : String) :
    rawKind t = GitChunkKind.Blank ↔ isBlankLine t = true := by
  unfold rawKind
  by_cases h1 : isBlankLine t = true
  · rw [if_pos h1]; simp [h1]
  · rw [if_neg h1]
    by_cases h2 : isSplitLine t = true
    · rw [if_pos h2]
      constructor
      · intro h; exact absurd h (by decide)
      · intro h; exact absurd h h1
    · rw [if_neg h2]
      constructor
      · intro h; exact absurd h (by decide)
      · intro h; exact absurd h h1

theorem lineAt_of_get? {doc : List String} {k : Nat} {t : String}
    (h : doc.get? k = some t) : lineAt doc k = t := by
  unfold lineAt
  rw [List.getD_eq_get?, h]
  rfl

theorem cutBefore_succ {doc : List String} {k : Nat} {t : String}
    (h : doc.get? k = some t) :
    cutBefore doc (k + 1) = (cutBefore doc k || isCutLine t) := by
  unfold cutBefore
  rw [List.take_succ, List.any_append, ← List.get?_eq_getElem?, h]
  simp

theorem trigBefore_succ (doc : List String) (k : Nat) :
    trigBefore doc (k + 1) = (trigBefore doc k || trigAt doc k) := by
  unfold trigBefore
  rw [List.range_succ, List.any_append]
  simp

theorem trigBefore_mono {doc : List String} {k m : Nat} (h : k ≤ m)
    (hk : trigBefore doc k = true) : trigBefore doc m = true := by
  unfold trigBefore at hk ⊢
  rw [List.any_eq_true] at hk ⊢
  obtain ⟨j, hj, hja⟩ := hk
  exact ⟨j, List.mem_range.mpr (Nat.lt_of_lt_of_le (List.mem_range.mp hj) h), hja⟩

theorem trigAt_trigBefore {doc : List String} {m : Nat}
    (h : trigAt doc m = true) : trigBefore doc (m + 1) = true := by
  rw [trigBefore_succ, h, Bool.or_true]

/-- `extendLast` rewrites the last chunk's end line and keeps the rest. -/
theorem extendLast_eq :
    ∀ (cs : List Chunk) (h : cs ≠ []) (k : Nat),
      extendLast cs k =
        cs.dropLast ++ [⟨(cs.getLast h).startLine, k, (cs.getLast h).kind⟩] := by
  intro cs
  induction cs with
  | nil => intro h; exact absurd rfl h
  | cons c rest ih =>
    intro _ k
    cases rest with
    | nil => rfl
    | cons c' rest' =>
      show c :: extendLast (c' :: rest') k = _
      rw [ih (by simp) k]
      rw [List.dropLast_cons₂]
      rw [List.getLast_cons (by simp : (c' :: rest') ≠ [])]
      rfl

theorem inv_init (doc : List String) : Inv doc 0 initState := by
  constructor
  · intro _; rfl
  · rfl
  · rfl
  · rfl
  · simp [initState]
  · intro c hc
    simp only [initState, List.head?_cons, Option.some.injEq] at hc
    rw [← hc]
  · intro c hc
    simp only [initState] at hc
    rw [List.getLast?_eq_getLast _ (by simp)] at hc
    injection hc with hc
    rw [← hc]
    rfl
  · exact List.chain'_singleton _
  · intro c hc
    simp only [initState, List.mem_singleton] at hc
    rw [hc]
  · intro c hc
    simp only [initState, List.mem_singleton] at hc
    rw [hc]
  · intro c hc
    simp only [initState] at hc
    rw [List.getLast?_eq_getLast _ (by simp)] at hc
    injection hc with hc
    rw [← hc]
    exact Or.inl rfl
  · intro h; exact absurd h (by decide)
  · intro h; exact absurd h (by decide)
  · rfl
  · simp [countSubject, initState, List.countP_cons]
  · intro c hc hk
    simp only [initState, List.mem_singleton] at hc
    rw [hc] at hk
    exact absurd hk (by decide)
  · intro _ j hj
    exact absurd hj (Nat.not_lt_zero j)
  · intro _ c hc
    simp only [initState, List.mem_singleton] at hc
    rw [hc]
    decide
  · intro c _ m hm
    exact absurd hm (Nat.not_lt_zero m)
  · intro c hc hk
    simp only [initState, List.mem_singleton] at hc
    rw [hc] at hk
    rcases hk with hk | hk <;> exact absurd hk (by decide)
  · intro c hc
    simp only [initState, List.mem_singleton] at hc
    rw [hc]
    decide

theorem rawKind_comment_isSplit {t : String}
    (h : rawKind t = GitChunkKind.Comment) : isSplitLine t = true := by
  unfold rawKind at h
  by_cases h1 : isBlankLine t = true
  · exact isBlankLine_isSplit h1
  · rw [if_neg h1] at h
    by_cases h2 : isSplitLine t = true
    · exact h2
    · rw [if_neg h2] at h
      exact absurd h (by decide)

/-- One step of the loop preserves the invariant. -/
theorem inv_step (doc : List String) (t : String) (k : Nat) (s : ChunkState)
    (ht : doc.get? k = some t) (inv : Inv doc k s) :
    Inv doc (k + 1) (processLine t k s) := by
  have hline := lineAt_of_get? ht
  have hcutf_of_not_split : isSplitLine t = false → isCutLine t = false := by
    intro h2
    cases hct : isCutLine t
    · rfl
    · rw [isCutLine_isSplit hct] at h2
      exact absurd h2 (by simp)
  have hHC : stepHadCut t s.hadCutLine = cutBefore doc (k + 1) := by
    rw [cutBefore_succ ht, ← inv.hCut]
    unfold stepHadCut
    by_cases h1 : isBlankLine t = true
    · rw [if_pos h1]
      have hcf : isCutLine t = false := by
        cases hct : isCutLine t
        · rfl
        · rw [isCutLine_not_blank hct] at h1
          exact absurd h1 (by simp)
      rw [hcf]
      simp
    · rw [if_neg h1]
      by_cases h2 : isSplitLine t = true
      · rw [if_pos h2]
      · rw [if_neg h2]
        rw [hcutf_of_not_split (Bool.eq_false_iff.mpr h2)]
        simp
  have hAD : (s.areInDiff || (stepHadCut t s.hadCutLine && !isSplitLine t)) =
      trigBefore doc (k + 1) := by
    rw [trigBefore_succ, inv.hDiff, hHC]
    congr 1
    unfold trigAt
    rw [hline, cutBefore_succ ht]
    by_cases h2 : isSplitLine t = true
    · rw [h2]; simp
    · have h2f : isSplitLine t = false := Bool.eq_false_iff.mpr h2
      rw [h2f, hcutf_of_not_split h2f]
      simp
  set K0 : GitChunkKind :=
    if (s.areInDiff || (stepHadCut t s.hadCutLine && !isSplitLine t)) then
      GitChunkKind.Diff
    else rawKind t with hK0
  have hK0' : K0 = if trigBefore doc (k + 1) = true then GitChunkKind.Diff
      else rawKind t := by
    rw [hK0, hAD]
  have hKns : K0 ≠ GitChunkKind.Subject := by
    rw [hK0']
    by_cases hc : trigBefore doc (k + 1) = true
    · rw [if_pos hc]; decide
    · rw [if_neg hc]; exact rawKind_ne_subject t
  have hKdiff : K0 = GitChunkKind.Diff ↔ trigBefore doc (k + 1) = true := by
    rw [hK0']
    by_cases hc : trigBefore doc (k + 1) = true
    · rw [if_pos hc]; simp [hc]
    · rw [if_neg hc]
      constructor
      · intro h; exact absurd h (rawKind_ne_diff t)
      · intro h; exact absurd h hc
  have hKnt : K0 ≠ GitChunkKind.Trailers := by
    rw [hK0']
    by_cases hc : trigBefore doc (k + 1) = true
    · rw [if_pos hc]; decide
    · rw [if_neg hc]; exact rawKind_ne_trailers t
  have hKpar : K0 = GitChunkKind.Paragraph →
      isSplitLine t = false ∧ isBlankLine t = false ∧
        trigBefore doc (k + 1) = false := by
    rw [hK0']
    by_cases hc : trigBefore doc (k + 1) = true
    · rw [if_pos hc]; intro h; exact absurd h (by decide)
    · rw [if_neg hc]
      intro h
      have hsp := (rawKind_paragraph_iff t).mp h
      refine ⟨hsp, ?_, Bool.eq_false_iff.mpr hc⟩
      cases hb : isBlankLine t
      · rfl
      · rw [isBlankLine_isSplit hb] at hsp
        exact absurd hsp (by simp)
  have hKBC : K0 = GitChunkKind.Blank ∨ K0 = GitChunkKind.Comment →
      isSplitLine t = true := by
    rw [hK0']
    by_cases hc : trigBefore doc (k + 1) = true
    · rw [if_pos hc]; rintro (h | h) <;> exact absurd h (by decide)
    · rw [if_neg hc]
      rintro (h | h)
      · exact isBlankLine_isSplit ((rawKind_blank_iff t).mp h)
      · exact rawKind_comment_isSplit h
  have hPL : processLine t k s =
      (if K0 = s.lastKind then
        { s with chunks := extendLast s.chunks k
                 hadInitialLine := true
                 hadCutLine := stepHadCut t s.hadCutLine
                 areInDiff := s.areInDiff || (stepHadCut t s.hadCutLine && !isSplitLine t) }
      else
        { chunks := (if s.hadInitialLine then s.chunks else s.chunks.dropLast) ++
            [⟨k, k, if K0 = GitChunkKind.Paragraph && !s.hadSubjectLine then
                GitChunkKind.Subject else K0⟩]
          lastKind := K0
          hadInitialLine := true
          hadSubjectLine := if K0 = GitChunkKind.Paragraph && !s.hadSubjectLine then
            true else s.hadSubjectLine
          hadCutLine := stepHadCut t s.hadCutLine
          areInDiff := s.areInDiff || (stepHadCut t s.hadCutLine && !isSplitLine t) }) := rfl
  rw [hPL]
  by_cases hbr : K0 = s.lastKind
  · -- extend branch
    rw [if_pos hbr]
    obtain hne := inv.ne
    have hlast? : s.chunks.getLast? = some (s.chunks.getLast hne) :=
      List.getLast?_eq_getLast _ hne
    set last := s.chunks.getLast hne with hlastdef
    have hLE : last.endLine = k - 1 := inv.lastEnd last hlast?
    have hLKrel := inv.lastK last hlast?
    have hel : extendLast s.chunks k =
        s.chunks.dropLast ++ [⟨last.startLine, k, last.kind⟩] :=
      extendLast_eq s.chunks hne k
    have hBsplit : s.chunks.dropLast ++ [last] = s.chunks :=
      List.dropLast_append_getLast hne
    have hmemD : ∀ x ∈ s.chunks.dropLast, x ∈ s.chunks := by
      intro x hx
      rw [← hBsplit]
      exact List.mem_append.mpr (Or.inl hx)
    have hmemE : ∀ x ∈ extendLast s.chunks k,
        x ∈ s.chunks.dropLast ∨ x = ⟨last.startLine, k, last.kind⟩ := by
      intro x hx
      rw [hel] at hx
      rcases List.mem_append.mp hx with h | h
      · exact Or.inl h
      · exact Or.inr (List.mem_singleton.mp h)
    have hwf_last : last.startLine ≤ last.endLine := inv.wf last (by
      rw [← hBsplit]; exact List.mem_append.mpr (Or.inr (List.mem_singleton.mpr rfl)))
    constructor
    · intro h; exact absurd h (Nat.succ_ne_zero k)
    · simp
    · exact hHC
    · exact hAD
    · rw [hel]; simp
    · -- head0
      intro c hc
      rw [hel] at hc
      cases hD : s.chunks.dropLast with
      | nil =>
        rw [hD] at hc
        simp only [List.nil_append, List.head?_cons, Option.some.injEq] at hc
        have hB : s.chunks = [last] := by rw [← hBsplit, hD]; rfl
        have : last.startLine = 0 := inv.head0 last (by rw [hB]; rfl)
        rw [← hc]
        exact this
      | cons d ds =>
        rw [hD] at hc
        simp only [List.cons_append, List.head?_cons, Option.some.injEq] at hc
        apply inv.head0 c
        rw [← hBsplit, hD]
        rw [← hc]
        rfl
    · -- lastEnd
      intro c hc
      rw [hel, List.getLast?_concat] at hc
      injection hc with hc
      rw [← hc]
      simp
    · -- chain
      rw [hel]
      have hAppOld : List.Chain' contigRel (s.chunks.dropLast ++ [last]) := by
        rw [hBsplit]; exact inv.chain
      obtain ⟨hCd, _, hRel⟩ := List.chain'_append.mp hAppOld
      refine List.chain'_append.mpr ⟨hCd, List.chain'_singleton _, ?_⟩
      intro x hx y hy
      simp only [List.head?_cons, Option.mem_def, Option.some.injEq] at hy
      have := hRel x hx last (by simp)
      rw [← hy]
      exact this
    · -- wf
      intro c hc
      rcases hmemE c hc with h | h
      · exact inv.wf c (hmemD c h)
      · rw [h]
        show last.startLine ≤ k
        omega
    · -- endB
      intro c hc
      rcases hmemE c hc with h | h
      · have := inv.endB c (hmemD c h)
        omega
      · rw [h]; simp
    · -- lastK
      intro c hc
      rw [hel, List.getLast?_concat] at hc
      injection hc with hc
      rw [← hc]
      exact hLKrel
    · exact inv.lkNS
    · exact inv.lkP
    · -- subj
      show s.hadSubjectLine = _
      conv_lhs => rw [inv.subj, ← hBsplit]
      rw [hel, List.any_append, List.any_append]
      rfl
    · -- subjCount
      unfold countSubject
      rw [hel, List.countP_append]
      have : countSubject s.chunks ≤ 1 := inv.subjCount
      unfold countSubject at this
      rw [← hBsplit, List.countP_append] at this
      simpa using this
    · -- subjPos
      intro c hc hk
      rcases hmemE c hc with h | h
      · exact inv.subjPos c (hmemD c h) hk
      · rw [h] at hk ⊢
        exact inv.subjPos last (by rw [← hBsplit]; simp) hk
    · -- noSubj
      intro hno j hj
      rcases Nat.lt_or_ge j k with hjk | hjk
      · exact inv.noSubj hno j hjk
      · have hjeq : j = k := by omega
        subst hjeq
        by_cases hsp : isSplitLine t = true
        · rw [hline]; exact Or.inl hsp
        · -- K0 is Paragraph or Diff; Paragraph contradicts hno via lkP
          right
          rw [hK0'] at hbr
          by_cases hc : trigBefore doc (j + 1) = true
          · exact hc
          · rw [if_neg hc] at hbr
            have : rawKind t = GitChunkKind.Paragraph :=
              (rawKind_paragraph_iff t).mpr (Bool.eq_false_iff.mpr hsp)
            rw [this] at hbr
            have := inv.lkP hbr.symm
            rw [this] at hno
            exact absurd hno (by simp)
    · -- noDiff
      intro hnt c hc
      have hntk : trigBefore doc k = false := by
        cases htk : trigBefore doc k
        · rfl
        · rw [trigBefore_mono (Nat.le_succ k) htk] at hnt
          exact absurd hnt (by simp)
      rcases hmemE c hc with h | h
      · exact inv.noDiff hntk c (hmemD c h)
      · rw [h]
        show last.kind ≠ GitChunkKind.Diff
        exact inv.noDiff hntk last (by rw [← hBsplit]; simp)
    · -- diffAll
      intro c hc m hm htr hmc
      have htr0 : trigAt doc 0 = false := by
        unfold trigAt cutBefore
        simp
      rcases hmemE c hc with h | h
      · have hend := inv.endB c (hmemD c h)
        have hmk : m < k := by
          rcases Nat.eq_zero_or_pos k with hk0 | hkpos
          · subst hk0
            have hm0 : m = 0 := by omega
            rw [hm0, htr0] at htr
            exact absurd htr (by simp)
          · omega
        exact inv.diffAll c (hmemD c h) m hmk htr hmc
      · rw [h]
        show last.kind = GitChunkKind.Diff
        rcases Nat.lt_or_ge m k with hmk | hmk
        · exact inv.diffAll last (by rw [← hBsplit]; simp) m hmk htr (by omega)
        · have hmeq : m = k := by omega
          subst hmeq
          have htb : trigBefore doc (m + 1) = true := trigAt_trigBefore htr
          have : K0 = GitChunkKind.Diff := hKdiff.mpr htb
          rw [this] at hbr
          rcases hLKrel with hlk | hlk
          · rw [hlk, ← hbr]
          · rw [← hbr] at hlk
            exact absurd hlk.1 (by decide)
    · -- noBlank
      intro c hc hk l hl1 hl2
      rcases hmemE c hc with h | h
      · exact inv.noBlank c (hmemD c h) hk l hl1 hl2
      · have hlastmem : last ∈ s.chunks := by rw [← hBsplit]; simp
        rw [h] at hk hl1 hl2
        simp only at hk hl1 hl2
        rcases Nat.lt_or_ge l k with hlk | hlk
        · exact inv.noBlank last hlastmem (by exact hk) l hl1 (by omega)
        · have hleq : l = k := by omega
          subst hleq
          rw [hline]
          -- last chunk is Paragraph or Subject, so lastKind is Paragraph,
          -- so K0 = Paragraph, so the line is not blank
          have hlkP : s.lastKind = GitChunkKind.Paragraph := by
            rcases hLKrel with hlk | hlk
            · rcases hk with hk | hk
              · rw [hk] at hlk; exact hlk.symm
              · rw [hk] at hlk
                exact absurd hlk.symm inv.lkNS
            · exact hlk.1
          rw [hlkP] at hbr
          exact (hKpar hbr).2.1
    · -- noTr
      intro c hc
      rcases hmemE c hc with h | h
      · exact inv.noTr c (hmemD c h)
      · rw [h]
        show last.kind ≠ GitChunkKind.Trailers
        exact inv.noTr last (by rw [← hBsplit]; simp)
  · -- push branch
    rw [if_neg hbr]
    set C : List Chunk :=
      if s.hadInitialLine = true then s.chunks else s.chunks.dropLast with hC
    set pushK : GitChunkKind :=
      if (decide (K0 = GitChunkKind.Paragraph) && !s.hadSubjectLine) = true then
        GitChunkKind.Subject
      else K0 with hpushK
    set hadS' : Bool :=
      if (decide (K0 = GitChunkKind.Paragraph) && !s.hadSubjectLine) = true then
        true
      else s.hadSubjectLine with hhadS
    have hCcase : (C = [] ∧ k = 0) ∨ (C = s.chunks ∧ 0 < k) := by
      by_cases hInitB : s.hadInitialLine = true
      · right
        refine ⟨by rw [hC, if_pos hInitB], ?_⟩
        have h2 := inv.hInit
        rw [hInitB] at h2
        exact of_decide_eq_true h2.symm
      · left
        have h2 := inv.hInit
        have hIf : s.hadInitialLine = false := Bool.eq_false_iff.mpr hInitB
        rw [hIf] at h2
        have hk0 : k = 0 := by
          by_contra hne0
          rw [decide_eq_true (Nat.pos_of_ne_zero hne0)] at h2
          exact absurd h2.symm (by simp)
        refine ⟨?_, hk0⟩
        have hs0 := inv.init0 hk0
        rw [hC, if_neg hInitB, hs0]
        rfl
    have hCmem : ∀ x ∈ C, x ∈ s.chunks := by
      rcases hCcase with ⟨hCnil, _⟩ | ⟨hCeq, _⟩
      · rw [hCnil]; intro x hx; exact absurd hx (List.not_mem_nil x)
      · rw [hCeq]; intro x hx; exact hx
    have hCany : C.any (fun c => c.kind = GitChunkKind.Subject) = s.hadSubjectLine := by
      rcases hCcase with ⟨hCnil, hk0⟩ | ⟨hCeq, _⟩
      · rw [hCnil, inv.init0 hk0]
        rfl
      · rw [hCeq, ← inv.subj]
    have hCcount : countSubject C ≤ 1 ∧
        (s.hadSubjectLine = false → countSubject C = 0) := by
      rcases hCcase with ⟨hCnil, hk0⟩ | ⟨hCeq, _⟩
      · rw [hCnil]
        exact ⟨by simp [countSubject], fun _ => by simp [countSubject]⟩
      · rw [hCeq]
        refine ⟨inv.subjCount, fun hno => ?_⟩
        unfold countSubject
        rw [List.countP_eq_zero]
        intro c hc
        have hany : s.chunks.any (fun c => c.kind = GitChunkKind.Subject) = false := by
          rw [← inv.subj]; exact hno
        exact List.any_eq_false.mp hany c hc
    have hClast : ∀ x, C.getLast? = some x → x.endLine + 1 = k := by
      rcases hCcase with ⟨hCnil, _⟩ | ⟨hCeq, hkpos⟩
      · rw [hCnil]; intro x hx; exact absurd hx (by simp)
      · rw [hCeq]
        intro x hx
        have := inv.lastEnd x hx
        omega
    have hChead : ∀ c, C.head? = some c → c.startLine = 0 := by
      rcases hCcase with ⟨hCnil, _⟩ | ⟨hCeq, _⟩
      · rw [hCnil]; intro c hch; exact absurd hch (by simp)
      · rw [hCeq]; exact inv.head0
    have hCchain : List.Chain' contigRel C := by
      rcases hCcase with ⟨hCnil, _⟩ | ⟨hCeq, _⟩
      · rw [hCnil]; exact List.chain'_nil
      · rw [hCeq]; exact inv.chain
    have htr0 : trigAt doc 0 = false := by
      unfold trigAt cutBefore
      simp
    have hnewS : (decide (K0 = GitChunkKind.Subject) : Bool) = false := by
      cases hd : (decide (K0 = GitChunkKind.Subject) : Bool)
      · rfl
      · exact absurd (of_decide_eq_true hd) hKns
    have hPSfacts : (pushK = GitChunkKind.Subject ∧ K0 = GitChunkKind.Paragraph ∧
          s.hadSubjectLine = false ∧ hadS' = true) ∨
        (pushK = K0 ∧ hadS' = s.hadSubjectLine ∧
          (K0 = GitChunkKind.Paragraph → s.hadSubjectLine = true)) := by
      by_cases hPS : (decide (K0 = GitChunkKind.Paragraph) && !s.hadSubjectLine) = true
      · left
        obtain ⟨hp, hq⟩ := Bool.and_eq_true_iff.mp hPS
        have hno : s.hadSubjectLine = false := by
          cases hS : s.hadSubjectLine
          · rfl
          · rw [hS] at hq; exact absurd hq (by simp)
        exact ⟨by rw [hpushK, if_pos hPS], of_decide_eq_true hp, hno,
          by rw [hhadS, if_pos hPS]⟩
      · right
        refine ⟨by rw [hpushK, if_neg hPS], by rw [hhadS, if_neg hPS], ?_⟩
        intro hKP
        rw [Bool.and_eq_true_iff] at hPS
        push_neg at hPS
        have := hPS (decide_eq_true hKP)
        cases hS : s.hadSubjectLine
        · rw [hS] at this; exact absurd rfl this
        · rfl
    have hpushK_ne_diff_of : K0 ≠ GitChunkKind.Diff → pushK ≠ GitChunkKind.Diff := by
      intro hKnd
      rcases hPSfacts with ⟨hps, _, _, _⟩ | ⟨hps, _, _⟩
      · rw [hps]; decide
      · rw [hps]; exact hKnd
    constructor
    · intro h; exact absurd h (Nat.succ_ne_zero k)
    · simp
    · exact hHC
    · exact hAD
    · simp
    · -- head0
      intro c hc
      replace hc : (C ++ [(⟨k, k, pushK⟩ : Chunk)]).head? = some c := hc
      rcases hCcase with ⟨hCnil, hk0⟩ | ⟨hCeq, hkpos⟩
      · rw [hCnil] at hc
        simp only [List.nil_append, List.head?_cons, Option.some.injEq] at hc
        rw [← hc]
        exact hk0
      · cases hCc : C with
        | nil =>
          rw [hCc] at hCeq
          exact absurd hCeq.symm inv.ne
        | cons c0 C' =>
          rw [hCc] at hc
          simp only [List.cons_append, List.head?_cons, Option.some.injEq] at hc
          rw [← hc]
          apply hChead c0
          rw [hCc]
          rfl
    · -- lastEnd
      intro c hc
      replace hc : (C ++ [(⟨k, k, pushK⟩ : Chunk)]).getLast? = some c := hc
      rw [List.getLast?_concat] at hc
      injection hc with hc
      rw [← hc]
      show k = k + 1 - 1
      omega
    · -- chain
      show List.Chain' contigRel (C ++ [(⟨k, k, pushK⟩ : Chunk)])
      refine List.chain'_append.mpr ⟨hCchain, List.chain'_singleton _, ?_⟩
      intro x hx y hy
      simp only [List.head?_cons, Option.mem_def, Option.some.injEq] at hy
      rw [← hy]
      exact hClast x hx
    · -- wf
      intro c hc
      replace hc : c ∈ C ++ [(⟨k, k, pushK⟩ : Chunk)] := hc
      rcases List.mem_append.mp hc with h | h
      · exact inv.wf c (hCmem c h)
      · rw [List.mem_singleton.mp h]
    · -- endB
      intro c hc
      replace hc : c ∈ C ++ [(⟨k, k, pushK⟩ : Chunk)] := hc
      rcases List.mem_append.mp hc with h | h
      · have := inv.endB c (hCmem c h)
        omega
      · rw [List.mem_singleton.mp h]
        simp
    · -- lastK
      intro c hc
      replace hc : (C ++ [(⟨k, k, pushK⟩ : Chunk)]).getLast? = some c := hc
      rw [List.getLast?_concat] at hc
      injection hc with hc
      rw [← hc]
      show pushK = K0 ∨ (K0 = GitChunkKind.Paragraph ∧ pushK = GitChunkKind.Subject)
      rcases hPSfacts with ⟨hps, hKP, _, _⟩ | ⟨hps, _, _⟩
      · exact Or.inr ⟨hKP, hps⟩
      · exact Or.inl hps
    · -- lkNS
      exact hKns
    · -- lkP
      intro hKP
      show hadS' = true
      rcases hPSfacts with ⟨_, _, _, hS⟩ | ⟨_, hS, himp⟩
      · exact hS
      · rw [hS]
        exact himp hKP
    · -- subj
      show hadS' = (C ++ [(⟨k, k, pushK⟩ : Chunk)]).any
        (fun c => c.kind = GitChunkKind.Subject)
      rw [List.any_append]
      rcases hPSfacts with ⟨hps, _, _, hS⟩ | ⟨hps, hS, _⟩
      · rw [hS, hps]
        simp
      · rw [hS, hps]
        have h1 : ([(⟨k, k, K0⟩ : Chunk)].any fun c => c.kind = GitChunkKind.Subject) = false := by
          simp only [List.any_cons, List.any_nil, Bool.or_false]
          exact hnewS
        rw [h1, hCany]
        simp
    · -- subjCount
      show countSubject (C ++ [(⟨k, k, pushK⟩ : Chunk)]) ≤ 1
      unfold countSubject
      rw [List.countP_append]
      rcases hPSfacts with ⟨hps, _, hno, _⟩ | ⟨hps, _, _⟩
      · have h0 := hCcount.2 hno
        unfold countSubject at h0
        rw [h0, hps]
        simp
      · have h1 := hCcount.1
        unfold countSubject at h1
        rw [hps]
        simp only [List.countP_cons, List.countP_nil, hnewS]
        simpa using h1
    · -- subjPos
      intro c hc hk
      replace hc : c ∈ C ++ [(⟨k, k, pushK⟩ : Chunk)] := hc
      rcases List.mem_append.mp hc with h | h
      · exact inv.subjPos c (hCmem c h) hk
      · have hck : c = (⟨k, k, pushK⟩ : Chunk) := List.mem_singleton.mp h
        rw [hck] at hk ⊢
        simp only at hk ⊢
        rcases hPSfacts with ⟨hps, hKP, hno, _⟩ | ⟨hps, _, _⟩
        · obtain ⟨hsp, _, hnt⟩ := hKpar hKP
          refine ⟨by rw [hline]; exact hsp, ?_⟩
          intro j hj
          rcases inv.noSubj hno j hj with hspj | htrj
          · exact hspj
          · have : trigBefore doc (k + 1) = true :=
              trigBefore_mono (by omega) htrj
            rw [this] at hnt
            exact absurd hnt (by simp)
        · rw [hps] at hk
          exact absurd hk hKns
    · -- noSubj
      intro hno' j hj
      replace hno' : hadS' = false := hno'
      rcases hPSfacts with ⟨_, _, _, hS⟩ | ⟨hps, hS, himp⟩
      · rw [hS] at hno'
        exact absurd hno' (by simp)
      · rw [hS] at hno'
        rcases Nat.lt_or_ge j k with hjk | hjk
        · exact inv.noSubj hno' j hjk
        · have hjeq : j = k := by omega
          subst hjeq
          have hKnp : K0 ≠ GitChunkKind.Paragraph := by
            intro hKP
            rw [himp hKP] at hno'
            exact absurd hno' (by simp)
          cases hK0k : K0 with
          | Subject => exact absurd hK0k hKns
          | Paragraph => exact absurd hK0k hKnp
          | Diff =>
            right
            exact hKdiff.mp hK0k
          | Blank =>
            left
            rw [hline]
            exact hKBC (Or.inl hK0k)
          | Comment =>
            left
            rw [hline]
            exact hKBC (Or.inr hK0k)
          | Trailers =>
            exfalso
            rw [hK0'] at hK0k
            by_cases hcd : trigBefore doc (j + 1) = true
            · rw [if_pos hcd] at hK0k
              exact absurd hK0k (by decide)
            · rw [if_neg hcd] at hK0k
              unfold rawKind at hK0k
              by_cases h1 : isBlankLine t = true
              · rw [if_pos h1] at hK0k; exact absurd hK0k (by decide)
              · rw [if_neg h1] at hK0k
                by_cases h2 : isSplitLine t = true
                · rw [if_pos h2] at hK0k; exact absurd hK0k (by decide)
                · rw [if_neg h2] at hK0k; exact absurd hK0k (by decide)
    · -- noDiff
      intro hnt c hc
      replace hc : c ∈ C ++ [(⟨k, k, pushK⟩ : Chunk)] := hc
      have hntk : trigBefore doc k = false := by
        cases htk : trigBefore doc k
        · rfl
        · rw [trigBefore_mono (Nat.le_succ k) htk] at hnt
          exact absurd hnt (by simp)
      rcases List.mem_append.mp hc with h | h
      · exact inv.noDiff hntk c (hCmem c h)
      · rw [List.mem_singleton.mp h]
        show pushK ≠ GitChunkKind.Diff
        apply hpushK_ne_diff_of
        intro hKD
        rw [hKdiff.mp hKD] at hnt
        exact absurd hnt (by simp)
    · -- diffAll
      intro c hc m hm htr hmc
      replace hc : c ∈ C ++ [(⟨k, k, pushK⟩ : Chunk)] := hc
      rcases List.mem_append.mp hc with h | h
      · have hend := inv.endB c (hCmem c h)
        have hmk : m < k := by
          rcases Nat.eq_zero_or_pos k with hk0 | hkpos
          · subst hk0
            have hm0 : m = 0 := by omega
            rw [hm0, htr0] at htr
            exact absurd htr (by simp)
          · omega
        exact inv.diffAll c (hCmem c h) m hmk htr hmc
      · rw [List.mem_singleton.mp h]
        show pushK = GitChunkKind.Diff
        have htb : trigBefore doc (k + 1) = true := by
          have h1 : trigBefore doc (m + 1) = true := trigAt_trigBefore htr
          exact trigBefore_mono (by omega) h1
        have hKD : K0 = GitChunkKind.Diff := hKdiff.mpr htb
        rcases hPSfacts with ⟨_, hKP, _, _⟩ | ⟨hps, _, _⟩
        · rw [hKD] at hKP
          exact absurd hKP (by decide)
        · rw [hps]
          exact hKD
    · -- noBlank
      intro c hc hk l hl1 hl2
      replace hc : c ∈ C ++ [(⟨k, k, pushK⟩ : Chunk)] := hc
      rcases List.mem_append.mp hc with h | h
      · exact inv.noBlank c (hCmem c h) hk l hl1 hl2
      · have hck : c = (⟨k, k, pushK⟩ : Chunk) := List.mem_singleton.mp h
        rw [hck] at hk hl1 hl2
        simp only at hk hl1 hl2
        have hleq : l = k := by omega
        subst hleq
        rw [hline]
        have hKP : K0 = GitChunkKind.Paragraph := by
          rcases hPSfacts with ⟨_, hKP, _, _⟩ | ⟨hps, _, _⟩
          · exact hKP
          · rw [hps] at hk
            rcases hk with hk | hk
            · exact hk
            · exact absurd hk hKns
        exact (hKpar hKP).2.1
    · -- noTr
      intro c hc
      replace hc : c ∈ C ++ [(⟨k, k, pushK⟩ : Chunk)] := hc
      rcases List.mem_append.mp hc with h | h
      · exact inv.noTr c (hCmem c h)
      · rw [List.mem_singleton.mp h]
        show pushK ≠ GitChunkKind.Trailers
        rcases hPSfacts with ⟨hps, _, _, _⟩ | ⟨hps, _, _⟩
        · rw [hps]; decide
        · rw [hps]; exact hKnt

theorem inv_run :
    ∀ (rest doc : List String) (k : Nat) (s : ChunkState),
      doc.drop k = rest → Inv doc k s →
      Inv doc (k + rest.length) (runChunks rest k s) := by
  intro rest
  induction rest with
  | nil =>
    intro doc k s _ inv
    simpa [runChunks] using inv
  | cons t rest' ih =>
    intro doc k s hdrop inv
    have hget : doc.get? k = some t := by
      have h1 : (doc.drop k).head? = some t := by rw [hdrop]; rfl
      rw [List.head?_drop, ← List.get?_eq_getElem?] at h1
      exact h1
    have hdrop' : doc.drop (k + 1) = rest' := by
      rw [← List.tail_drop, hdrop]
      rfl
    have step := inv_step doc t k s hget inv
    have hres := ih doc (k + 1) _ hdrop' step
    have harith : k + 1 + rest'.length = k + (t :: rest').length := by
      simp [List.length_cons]
      omega
    rw [harith] at hres
    exact hres

theorem inv_assemble (doc : List String) :
    Inv doc doc.length (runChunks doc 0 initState) := by
  have h := inv_run doc doc 0 initState (by simp) (inv_init doc)
  simpa using h

/-! ## Transfer of final-state facts through the reclassification -/

theorem set_get?_self {α : Type} :
    ∀ (l : List α) (i : Nat) (a : α), l.get? i = some a → l.set i a = l := by
  intro l
  induction l with
  | nil => intro i a h; simp at h
  | cons x rest ih =>
    intro i a h
    cases i with
    | zero =>
      simp only [List.get?_cons_zero, Option.some.injEq] at h
      rw [← h]
      rfl
    | succ i =>
      simp only [List.get?_cons_succ] at h
      rw [List.set_cons_succ, ih i a h]

theorem lastParagraphIdx_spec :
    ∀ (cs : List Chunk) (i : Nat), lastParagraphIdx cs = some i →
      ∃ h : i < cs.length, (cs.get ⟨i, h⟩).kind = GitChunkKind.Paragraph := by
  intro cs
  induction cs with
  | nil => intro i h; simp [lastParagraphIdx] at h
  | cons c rest ih =>
    intro i h
    unfold lastParagraphIdx at h
    cases hrest : lastParagraphIdx rest with
    | some j =>
      rw [hrest] at h
      injection h with h
      obtain ⟨hj, hk⟩ := ih j hrest
      rw [← h]
      exact ⟨Nat.succ_lt_succ hj, hk⟩
    | none =>
      rw [hrest] at h
      by_cases hc : c.kind = GitChunkKind.Paragraph
      · rw [if_pos hc] at h
        injection h with h
        rw [← h]
        exact ⟨Nat.succ_pos _, hc⟩
      · rw [if_neg hc] at h
        exact absurd h (by simp)

theorem getD_of_lt {cs : List Chunk} {i : Nat} (h : i < cs.length) :
    cs.getD i default = cs.get ⟨i, h⟩ := by
  rw [List.getD_eq_get?, List.get?_eq_get h]
  rfl

/-- Every chunk of the reclassified list matches a chunk of the input
with the same range, the kind changing at most from Paragraph to
Trailers. -/
theorem reclassify_cases (doc : List String) (cs : List Chunk) :
    ∀ c' ∈ reclassifyLast doc cs, ∃ c ∈ cs,
      c'.startLine = c.startLine ∧ c'.endLine = c.endLine ∧
      (c'.kind = c.kind ∨
        (c.kind = GitChunkKind.Paragraph ∧ c'.kind = GitChunkKind.Trailers)) := by
  intro c' hc'
  unfold reclassifyLast at hc'
  cases hidx : lastParagraphIdx cs with
  | none =>
    rw [hidx] at hc'
    exact ⟨c', hc', rfl, rfl, Or.inl rfl⟩
  | some i =>
    rw [hidx] at hc'
    simp only [] at hc'
    obtain ⟨hilen, hkind⟩ := lastParagraphIdx_spec cs i hidx
    by_cases htr : isTrailersChunkLines (chunkLines doc (cs.getD i default)) = true
    · rw [if_pos htr] at hc'
      rcases List.mem_or_eq_of_mem_set hc' with h | h
      · exact ⟨c', h, rfl, rfl, Or.inl rfl⟩
      · refine ⟨cs.getD i default, ?_, ?_⟩
        · rw [getD_of_lt hilen]
          exact List.get_mem cs i hilen
        · rw [h]
          refine ⟨rfl, rfl, Or.inr ⟨?_, rfl⟩⟩
          rw [getD_of_lt hilen]
          exact hkind
    · rw [if_neg htr] at hc'
      exact ⟨c', hc', rfl, rfl, Or.inl rfl⟩

theorem reclassify_ranges (doc : List String) (cs : List Chunk) :
    (reclassifyLast doc cs).map (fun c => (c.startLine, c.endLine)) =
      cs.map (fun c => (c.startLine, c.endLine)) := by
  unfold reclassifyLast
  cases hidx : lastParagraphIdx cs with
  | none => rfl
  | some i =>
    simp only []
    obtain ⟨hilen, _⟩ := lastParagraphIdx_spec cs i hidx
    by_cases htr : isTrailersChunkLines (chunkLines doc (cs.getD i default)) = true
    · rw [if_pos htr, List.map_set]
      apply set_get?_self
      rw [List.get?_map, List.get?_eq_get hilen, getD_of_lt hilen]
      rfl
    · rw [if_neg htr]

theorem reclassify_length (doc : List String) (cs : List Chunk) :
    (reclassifyLast doc cs).length = cs.length := by
  have h := congrArg List.length (reclassify_ranges doc cs)
  simpa using h

theorem exists_of_set_at {α : Type} {l : List α} {n : Nat} (a : α)
    (h : n < l.length) :
    ∃ l₁ l₂, l = l₁ ++ l[n] :: l₂ ∧ l₁.length = n ∧ l.set n a = l₁ ++ a :: l₂ :=
  List.exists_of_set h

theorem reclassify_countSubject (doc : List String) (cs : List Chunk) :
    countSubject (reclassifyLast doc cs) = countSubject cs := by
  unfold reclassifyLast
  cases hidx : lastParagraphIdx cs with
  | none => rfl
  | some i =>
    simp only []
    obtain ⟨hilen, hkind⟩ := lastParagraphIdx_spec cs i hidx
    by_cases htr : isTrailersChunkLines (chunkLines doc (cs.getD i default)) = true
    · rw [if_pos htr]
      obtain ⟨l₁, l₂, hdec, hlen, hset⟩ :=
        exists_of_set_at
          ({ cs.getD i default with kind := GitChunkKind.Trailers } : Chunk) hilen
      rw [hset]
      conv_rhs => rw [hdec]
      unfold countSubject
      rw [List.countP_append, List.countP_append, List.countP_cons, List.countP_cons]
      have h1 : (decide (({ cs.getD i default with
          kind := GitChunkKind.Trailers } : Chunk).kind = GitChunkKind.Subject)) = false := rfl
      have h2 : (decide (cs[i].kind = GitChunkKind.Subject)) = false := by
        have hgi : cs[i] = cs.get ⟨i, hilen⟩ := rfl
        rw [hgi, hkind]
        decide
      rw [h1, h2]
    · rw [if_neg htr]

/-- A Subject chunk survives the reclassification step. -/
theorem subject_mem_reclassify {doc : List String} {cs : List Chunk} {c : Chunk}
    (hc : c ∈ cs) (hk : c.kind = GitChunkKind.Subject) :
    c ∈ reclassifyLast doc cs := by
  unfold reclassifyLast
  cases hidx : lastParagraphIdx cs with
  | none => exact hc
  | some i =>
    simp only []
    obtain ⟨hilen, hkind⟩ := lastParagraphIdx_spec cs i hidx
    by_cases htr : isTrailersChunkLines (chunkLines doc (cs.getD i default)) = true
    · rw [if_pos htr]
      obtain ⟨l₁, l₂, hdec, hlen, hset⟩ :=
        exists_of_set_at
          ({ cs.getD i default with kind := GitChunkKind.Trailers } : Chunk) hilen
      rw [hset]
      rw [hdec] at hc
      rcases List.mem_append.mp hc with h | h
      · exact List.mem_append.mpr (Or.inl h)
      · rcases List.mem_cons.mp h with h | h
        · exfalso
          have hgi : cs[i] = cs.get ⟨i, hilen⟩ := rfl
          rw [h, hgi, hkind] at hk
          exact absurd hk (by decide)
        · exact List.mem_append.mpr (Or.inr (List.mem_cons_of_mem _ h))
    · rw [if_neg htr]
      exact hc

/-! ## Coverage: contiguous well-formed chunk lists partition the lines -/

theorem rest_start_gt :
    ∀ (c : Chunk) (rest : List Chunk), List.Chain' contigRel (c :: rest) →
      (∀ x ∈ c :: rest, x.startLine ≤ x.endLine) →
      ∀ x ∈ rest, c.endLine < x.startLine := by
  intro c rest
  induction rest generalizing c with
  | nil =>
    intro _ _ x hx
    exact absurd hx (List.not_mem_nil x)
  | cons c' rest' ih =>
    intro hch hwf x hx
    obtain ⟨hrel, hch'⟩ := List.chain'_cons.mp hch
    unfold contigRel at hrel
    rcases List.mem_cons.mp hx with hx | hx
    · rw [hx]
      omega
    · have h1 := ih c' hch' (fun y hy => hwf y (List.mem_cons_of_mem c hy)) x hx
      have h2 : c'.startLine ≤ c'.endLine :=
        hwf c' (List.mem_cons_of_mem c (List.mem_cons_self c' rest'))
      omega

theorem cover_unique :
    ∀ (cs : List Chunk) (c0 ce : Chunk) (l : Nat),
      List.Chain' contigRel cs →
      (∀ x ∈ cs, x.startLine ≤ x.endLine) →
      cs.head? = some c0 → c0.startLine ≤ l →
      cs.getLast? = some ce → l ≤ ce.endLine →
      ∃! c, c ∈ cs ∧ c.startLine ≤ l ∧ l ≤ c.endLine := by
  intro cs
  induction cs with
  | nil =>
    intro c0 ce l _ _ h0
    exact absurd h0 (by simp)
  | cons c rest ih =>
    intro c0 ce l hch hwf h0 hstart hlast hend
    simp only [List.head?_cons, Option.some.injEq] at h0
    subst h0
    by_cases hle : l ≤ c.endLine
    · refine ⟨c, ⟨List.mem_cons_self c rest, hstart, hle⟩, ?_⟩
      rintro y ⟨hy, hys, _⟩
      rcases List.mem_cons.mp hy with h | h
      · exact h
      · have := rest_start_gt c rest hch hwf y h
        omega
    · cases rest with
      | nil =>
        simp only [List.getLast?_singleton, Option.some.injEq] at hlast
        rw [← hlast] at hend
        omega
      | cons c1 rest' =>
        obtain ⟨hrel, hch'⟩ := List.chain'_cons.mp hch
        unfold contigRel at hrel
        have hstart1 : c1.startLine ≤ l := by omega
        rw [List.getLast?_cons_cons] at hlast
        obtain ⟨y, hy, huniq⟩ := ih c1 ce l hch'
          (fun x hx => hwf x (List.mem_cons_of_mem c hx)) rfl hstart1 hlast hend
        refine ⟨y, ⟨List.mem_cons_of_mem c hy.1, hy.2.1, hy.2.2⟩, ?_⟩
        rintro z ⟨hz, hzs, hze⟩
        rcases List.mem_cons.mp hz with h | h
        · rw [h] at hze ⊢
          omega
        · exact huniq z ⟨h, hzs, hze⟩

/-! ## Claims C2, C3, C4 -/

/-- Claim C2: for every nonempty document the chunk sequence returned by
`getDocumentChunks` is nonempty, ordered and contiguous
(`chunk[i].endLine + 1 = chunk[i+1].startLine`), the first chunk starts at
line 0, the last chunk ends at the last line, and every line of the
document lies in exactly one chunk. -/
theorem C2_partition :
    ∀ doc : List String, doc ≠ [] →
      getDocumentChunks doc ≠ [] ∧
      List.Chain' contigRel (getDocumentChunks doc) ∧
      (∀ c, (getDocumentChunks doc).head? = some c → c.startLine = 0) ∧
      (∀ c, (getDocumentChunks doc).getLast? = some c →
        c.endLine = doc.length - 1) ∧
      (∀ l, l < doc.length →
        ∃! c, c ∈ getDocumentChunks doc ∧ c.startLine ≤ l ∧ l ≤ c.endLine) := by
  intro doc hdoc
  have inv := inv_assemble doc
  have hfinal : getDocumentChunks doc =
      reclassifyLast doc (runChunks doc 0 initState).chunks := rfl
  have hranges := reclassify_ranges doc (runChunks doc 0 initState).chunks
  have hNE : getDocumentChunks doc ≠ [] := by
    rw [hfinal]
    intro h
    have hlen := reclassify_length doc (runChunks doc 0 initState).chunks
    rw [h] at hlen
    exact inv.ne (List.eq_nil_of_length_eq_zero hlen.symm)
  have hChain : List.Chain' contigRel (getDocumentChunks doc) := by
    have h1 : List.Chain' (fun p q : Nat × Nat => p.2 + 1 = q.1)
        ((getDocumentChunks doc).map (fun c => (c.startLine, c.endLine))) := by
      rw [hfinal, hranges]
      exact (List.chain'_map (fun c : Chunk => (c.startLine, c.endLine))).mpr inv.chain
    exact (List.chain'_map (fun c : Chunk => (c.startLine, c.endLine))).mp h1
  have hHead : ∀ c, (getDocumentChunks doc).head? = some c → c.startLine = 0 := by
    intro c hc
    have h1 : ((getDocumentChunks doc).map
        (fun c => (c.startLine, c.endLine))).head? = some (c.startLine, c.endLine) := by
      rw [List.head?_map, hc]
      rfl
    rw [hfinal, hranges, List.head?_map] at h1
    cases hp : (runChunks doc 0 initState).chunks.head? with
    | none => rw [hp] at h1; exact absurd h1 (by simp)
    | some c2 =>
      rw [hp] at h1
      simp only [Option.map_some', Option.some.injEq, Prod.mk.injEq] at h1
      rw [← h1.1]
      exact inv.head0 c2 hp
  have hLast : ∀ c, (getDocumentChunks doc).getLast? = some c →
      c.endLine = doc.length - 1 := by
    intro c hc
    have h1 : ((getDocumentChunks doc).map
        (fun c => (c.startLine, c.endLine))).getLast? = some (c.startLine, c.endLine) := by
      rw [List.getLast?_map, hc]
      rfl
    rw [hfinal, hranges, List.getLast?_map] at h1
    cases hp : (runChunks doc 0 initState).chunks.getLast? with
    | none => rw [hp] at h1; exact absurd h1 (by simp)
    | some c2 =>
      rw [hp] at h1
      simp only [Option.map_some', Option.some.injEq, Prod.mk.injEq] at h1
      rw [← h1.2]
      exact inv.lastEnd c2 hp
  have hWf : ∀ x ∈ getDocumentChunks doc, x.startLine ≤ x.endLine := by
    intro x hx
    obtain ⟨c0, hc0, hs, he, _⟩ :=
      reclassify_cases doc (runChunks doc 0 initState).chunks x (hfinal ▸ hx)
    rw [hs, he]
    exact inv.wf c0 hc0
  refine ⟨hNE, hChain, hHead, hLast, ?_⟩
  intro l hl
  cases hh : (getDocumentChunks doc).head? with
  | none => exact absurd (List.head?_eq_none_iff.mp hh) hNE
  | some c0 =>
    cases hlas : (getDocumentChunks doc).getLast? with
    | none =>
      rw [List.getLast?_eq_none_iff] at hlas
      exact absurd hlas hNE
    | some ce =>
      apply cover_unique _ c0 ce l hChain hWf hh ?_ hlas ?_
      · rw [hHead c0 hh]
        exact Nat.zero_le l
      · rw [hLast ce hlas]
        have : 0 < doc.length := List.length_pos.mpr hdoc
        omega

/-- Claim C2 witness: in the three-line document `["subject", "", "body"]`
line 1 lies in exactly one chunk. -/
theorem C2_partition_witness :
    ∃! c, c ∈ getDocumentChunks ["subject", "", "body"] ∧
      c.startLine ≤ 1 ∧ 1 ≤ c.endLine :=
  (C2_partition ["subject", "", "body"] (by decide)).2.2.2.2 1 (by decide)

/-- Claim C3: once a cut-marker line is followed at a later line by a line
not matching the comment pattern, every chunk of `getDocumentChunks` that
reaches that line or beyond has kind Diff — diff mode never resets. -/
theorem C3_diff_suffix :
    ∀ (doc : List String) (tr : Nat), tr < doc.length →
      (∃ j, j < tr ∧ isCutLine (lineAt doc j) = true) →
      isSplitLine (lineAt doc tr) = false →
      ∀ c ∈ getDocumentChunks doc, tr ≤ c.endLine →
        c.kind = GitChunkKind.Diff := by
  intro doc tr htr hex hsp c hc hle
  obtain ⟨j, hj, hcut⟩ := hex
  have inv := inv_assemble doc
  have htrig : trigAt doc tr = true := by
    unfold trigAt
    rw [hsp]
    simp only [Bool.not_false, Bool.and_true]
    unfold cutBefore
    rw [List.any_eq_true]
    have hjn : j < doc.length := by omega
    obtain ⟨x, hxget⟩ : ∃ x, doc.get? j = some x :=
      ⟨doc.get ⟨j, hjn⟩, List.get?_eq_get hjn⟩
    refine ⟨x, ?_, ?_⟩
    · apply List.get?_mem (n := j)
      rw [List.get?_take hj]
      exact hxget
    · rw [lineAt_of_get? hxget] at hcut
      exact hcut
  obtain ⟨c0, hc0, _, he, hkor⟩ :=
    reclassify_cases doc (runChunks doc 0 initState).chunks c hc
  have hk0 : c0.kind = GitChunkKind.Diff :=
    inv.diffAll c0 hc0 tr htr htrig (by omega)
  rcases hkor with h | h
  · rw [h, hk0]
  · rw [hk0] at h
    exact absurd h.1 (by decide)

/-- Claim C3 witness: in `docDiffExample` the chunk covering line 2 (after
the cut marker and the first non-comment line) has kind Diff. -/
theorem C3_diff_suffix_witness :
    ((getDocumentChunks docDiffExample).getD 2 default).kind = GitChunkKind.Diff :=
  C3_diff_suffix docDiffExample 2 (by decide) ⟨1, by decide, by decide⟩ (by decide)
    ((getDocumentChunks docDiffExample).getD 2 default) (by decide) (by decide)

/-- Claim C4: a document containing a non-blank, non-comment line with no
cut marker before it yields exactly one Subject chunk, and that chunk
starts at the first non-blank, non-comment line; no document ever yields
more than one Subject chunk. -/
theorem C4_subject_uniqueness :
    (∀ (doc : List String) (i : Nat), i < doc.length →
      isSplitLine (lineAt doc i) = false →
      (∀ j, j < i → isCutLine (lineAt doc j) = false) →
      countSubject (getDocumentChunks doc) = 1 ∧
        ∃ c, c ∈ getDocumentChunks doc ∧ c.kind = GitChunkKind.Subject ∧
          isSplitLine (lineAt doc c.startLine) = false ∧
          ∀ j, j < c.startLine → isSplitLine (lineAt doc j) = true) ∧
    (∀ doc : List String, countSubject (getDocumentChunks doc) ≤ 1) := by
  constructor
  · intro doc i hi hsp hnocut
    have inv := inv_assemble doc
    have hhad : (runChunks doc 0 initState).hadSubjectLine = true := by
      by_contra hno
      have hno' : (runChunks doc 0 initState).hadSubjectLine = false :=
        Bool.eq_false_iff.mpr hno
      rcases inv.noSubj hno' i hi with h | h
      · rw [h] at hsp
        exact absurd hsp (by simp)
      · unfold trigBefore at h
        rw [List.any_eq_true] at h
        obtain ⟨m, hm, hma⟩ := h
        rw [List.mem_range] at hm
        unfold trigAt at hma
        obtain ⟨hcb, _⟩ := Bool.and_eq_true_iff.mp hma
        unfold cutBefore at hcb
        rw [List.any_eq_true] at hcb
        obtain ⟨x, hx, hxcut⟩ := hcb
        obtain ⟨j2, hj2⟩ := List.mem_iff_get?.mp hx
        obtain ⟨hj2len, _⟩ := List.get?_eq_some.mp hj2
        rw [List.length_take] at hj2len
        have hj2m : j2 < m := lt_of_lt_of_le hj2len (min_le_left _ _)
        have hj2doc : doc.get? j2 = some x := by
          rw [← List.get?_take hj2m]
          exact hj2
        have hcf : isCutLine (lineAt doc j2) = false := hnocut j2 (by omega)
        rw [lineAt_of_get? hj2doc, hxcut] at hcf
        exact absurd hcf (by simp)
    have hanyS : ((runChunks doc 0 initState).chunks.any
        (fun c => c.kind = GitChunkKind.Subject)) = true := by
      rw [← inv.subj]
      exact hhad
    obtain ⟨c, hcmem, hcS'⟩ := List.any_eq_true.mp hanyS
    have hcS : c.kind = GitChunkKind.Subject := of_decide_eq_true hcS'
    have hcount1 : countSubject (runChunks doc 0 initState).chunks = 1 := by
      have hpos : 0 < countSubject (runChunks doc 0 initState).chunks := by
        unfold countSubject
        rw [List.countP_pos]
        exact ⟨c, hcmem, hcS'⟩
      have hle := inv.subjCount
      omega
    refine ⟨?_, c, subject_mem_reclassify hcmem hcS, hcS,
      (inv.subjPos c hcmem hcS).1, (inv.subjPos c hcmem hcS).2⟩
    rw [show getDocumentChunks doc =
      reclassifyLast doc (runChunks doc 0 initState).chunks from rfl]
    rw [reclassify_countSubject]
    exact hcount1
  · intro doc
    have inv := inv_assemble doc
    rw [show getDocumentChunks doc =
      reclassifyLast doc (runChunks doc 0 initState).chunks from rfl]
    rw [reclassify_countSubject]
    exact inv.subjCount

/-- Claim C4 witness: the one-line document `["hello world"]` yields
exactly one Subject chunk. -/
theorem C4_subject_uniqueness_witness :
    countSubject (getDocumentChunks ["hello world"]) = 1 :=
  (C4_subject_uniqueness.1 ["hello world"] 0 (by decide) (by decide)
    (fun j hj => absurd hj (Nat.not_lt_zero j))).1

theorem isTrailerCont_isBlank {x : String} (h : isTrailerCont x = true) :
    isBlankLine x = true := by
  unfold isTrailerCont at h
  unfold isBlankLine
  exact (Bool.and_eq_true_iff.mp h).2

theorem trailersScan_eq_noCont :
    ∀ (ls : List String) (r : Bool) (tc nc : Nat) (pc : Bool),
      (∀ x ∈ ls, isBlankLine x = false) →
      trailersScan ls r tc nc pc = trailersScanNoCont ls r tc nc := by
  intro ls
  induction ls with
  | nil => intro r tc nc pc _; rfl
  | cons x rest ih =>
    intro r tc nc pc hnb
    unfold trailersScan trailersScanNoCont
    have hcont : isTrailerCont x = false := by
      cases hct : isTrailerCont x
      · rfl
      · have h1 := hnb x (List.mem_cons_self x rest)
        rw [isTrailerCont_isBlank hct] at h1
        exact absurd h1 (by simp)
    rw [hcont]
    simp only [Bool.and_false, Bool.false_eq_true, if_false]
    have hnb' : ∀ y ∈ rest, isBlankLine y = false :=
      fun y hy => hnb y (List.mem_cons_of_mem x hy)
    by_cases h2 : isTrailerLine x = true
    · rw [if_pos h2, if_pos h2]
      exact ih r (tc + 1) nc true hnb'
    · rw [if_neg h2, if_neg h2]
      by_cases h3 : (!r) = true
      · rw [if_pos h3, if_pos h3]
      · rw [if_neg h3, if_neg h3]
        exact ih r tc (nc + 1) false hnb'

theorem isTrailersChunkLines_eq_noCont :
    ∀ ls : List String, (∀ x ∈ ls, isBlankLine x = false) →
      isTrailersChunkLines ls = isTrailersNoCont ls := by
  intro ls h
  cases ls with
  | nil => rfl
  | cons first rest =>
    show (if hasGitGeneratedStart first then trailersScan rest true 1 0 false
        else trailersScan (first :: rest) false 0 0 false) =
      (if hasGitGeneratedStart first then trailersScanNoCont rest true 1 0
        else trailersScanNoCont (first :: rest) false 0 0)
    by_cases hg : hasGitGeneratedStart first = true
    · rw [if_pos hg, if_pos hg]
      exact trailersScan_eq_noCont rest true 1 0 false
        (fun y hy => h y (List.mem_cons_of_mem first hy))
    · rw [if_neg hg, if_neg hg]
      exact trailersScan_eq_noCont (first :: rest) false 0 0 false h

/-- Claim C10: every chunk of kind Paragraph, Subject or Trailers contains
only lines that are not blank (empty or whitespace-only lines always close
such a chunk); consequently the whitespace-only continuation test of
`isTrailersChunk` can never fire on the lines of the last Paragraph chunk,
and the scan is equivalent to one without the continuation branch. -/
theorem C10_text_chunks :
    (∀ (doc : List String) (c : Chunk), c ∈ getDocumentChunks doc →
      (c.kind = GitChunkKind.Paragraph ∨ c.kind = GitChunkKind.Subject ∨
        c.kind = GitChunkKind.Trailers) →
      ∀ x ∈ chunkLines doc c, isBlankLine x = false) ∧
    (∀ ls : List String, (∀ x ∈ ls, isBlankLine x = false) →
      isTrailersChunkLines ls = isTrailersNoCont ls) := by
  constructor
  · intro doc c hc hk x hx
    have inv := inv_assemble doc
    obtain ⟨c0, hc0, hs, he, hkor⟩ :=
      reclassify_cases doc (runChunks doc 0 initState).chunks c hc
    have hk0 : c0.kind = GitChunkKind.Paragraph ∨
        c0.kind = GitChunkKind.Subject := by
      rcases hkor with hkk | ⟨hp, _⟩
      · rcases hk with h | h | h
        · left; rw [h] at hkk; exact hkk.symm
        · right; rw [h] at hkk; exact hkk.symm
        · exfalso
          rw [h] at hkk
          exact inv.noTr c0 hc0 hkk.symm
      · left; exact hp
    unfold chunkLines at hx
    obtain ⟨m, hm⟩ := List.mem_iff_get?.mp hx
    obtain ⟨hmlen, _⟩ := List.get?_eq_some.mp hm
    rw [List.length_take] at hmlen
    have hmlt : m < c.endLine + 1 - c.startLine :=
      lt_of_lt_of_le hmlen (min_le_left _ _)
    have hx' : doc.get? (c.startLine + m) = some x := by
      rw [← List.get?_drop, ← List.get?_take hmlt]
      exact hm
    rw [← lineAt_of_get? hx']
    apply inv.noBlank c0 hc0 hk0 (c.startLine + m) ?_ ?_
    · omega
    · omega
  · exact isTrailersChunkLines_eq_noCont

/-- Claim C10 witness: on the non-blank single trailer line the scan with
and without continuation branch agree. -/
theorem C10_text_chunks_witness :
    isTrailersChunkLines ["A: b"] = isTrailersNoCont ["A: b"] :=
  C10_text_chunks.2 ["A: b"] (by decide)

/-! ## The trailer decision rule as worded by the spec (for C1)

The spec describes the heuristic as: score every line of the chunk
(the first line counting as a trailer unconditionally when it starts with
a recognized git-generated marker, whitespace-only lines directly after a
trailer being skipped as continuations), accumulating `trailerCount` and
`nonTrailerCount`, and then reclassify iff
`(nonTrailerCount == 0 && trailerCount > 0) ||
 (recognizedPrefix && 3*trailerCount >= nonTrailerCount)`.
Unlike the code, this scorer never short-circuits. -/

theorem specScoreAux_le_nonTrailers :
    ∀ (ls : List String) (t n : Nat) (pc : Bool), n ≤ (specScoreAux ls t n pc).2 := by
  intro ls
  induction ls with
  | nil => intro t n pc; exact Nat.le_refl n
  | cons l rest ih =>
    intro t n pc
    unfold specScoreAux
    by_cases h1 : (pc && isTrailerCont l) = true
    · simp only [h1, if_true]; exact ih t n pc
    · simp only [h1, if_false]
      by_cases h2 : isTrailerLine l = true
      · simp only [h2, if_true]; exact ih (t + 1) n true
      · simp only [h2, if_false]
        exact Nat.le_trans (Nat.le_succ n) (ih t (n + 1) false)

theorem trailersScan_eq_spec :
    ∀ (ls : List String) (r : Bool) (t n : Nat) (pc : Bool),
      trailersScan ls r t n pc =
        (decide ((specScoreAux ls t n pc).2 = 0 ∧ 0 < (specScoreAux ls t n pc).1) ||
         (r && decide (3 * (specScoreAux ls t n pc).1 ≥ (specScoreAux ls t n pc).2))) := by
  intro ls
  induction ls with
  | nil =>
    intro r t n pc
    simp [trailersScan, specScoreAux, ge_iff_le]
  | cons l rest ih =>
    intro r t n pc
    unfold trailersScan specScoreAux
    by_cases h1 : (pc && isTrailerCont l) = true
    · simp only [h1, if_true]; exact ih r t n pc
    · simp only [h1, if_false]
      by_cases h2 : isTrailerLine l = true
      · simp only [h2, if_true]; exact ih r (t + 1) n true
      · simp only [h2, if_false]
        cases r with
        | true => simpa using ih true t (n + 1) false
        | false =>
          have hn : (specScoreAux rest t (n + 1) false).2 ≠ 0 :=
            Nat.pos_iff_ne_zero.mp
              (Nat.lt_of_lt_of_le (Nat.succ_pos n)
                (specScoreAux_le_nonTrailers rest t (n + 1) false))
          simp [hn]

theorem isTrailersChunkLines_eq_spec (ls : List String) :
    isTrailersChunkLines ls = specIsTrailersChunk ls := by
  cases ls with
  | nil => rfl
  | cons first rest =>
    unfold isTrailersChunkLines specIsTrailersChunk specScore
    by_cases h : hasGitGeneratedStart first = true
    · simp only [h, if_true]
      exact trailersScan_eq_spec rest true 1 0 false
    · simp only [h, if_false, Bool.false_and, Bool.or_false]
      have := trailersScan_eq_spec (first :: rest) false 0 0 false
      simpa using this

/-- Claim C1: the last Paragraph chunk produced by `getDocumentChunks` is
reclassified to Trailers exactly according to the spec's scoring rule —
`getDocumentChunks` equals the assembly followed by the spec-worded
reclassification (first line counting as a trailer unconditionally on a
recognized git-generated marker, decision
`(nonTrailerCount == 0 && trailerCount > 0) || (recognizedPrefix &&
3*trailerCount >= nonTrailerCount)`) — and in particular a recognized
marker followed by three prose lines is reclassified while four prose
lines are not. -/
theorem C1_trailer_reclassification :
    (∀ doc : List String,
      getDocumentChunks doc = specReclassifyLast doc (assembleChunks doc))
    ∧ getDocumentChunks docSignedThreeProse =
        [⟨0, 0, GitChunkKind.Subject⟩, ⟨1, 1, GitChunkKind.Blank⟩,
         ⟨2, 5, GitChunkKind.Trailers⟩]
    ∧ getDocumentChunks docSignedFourProse =
        [⟨0, 0, GitChunkKind.Subject⟩, ⟨1, 1, GitChunkKind.Blank⟩,
         ⟨2, 6, GitChunkKind.Paragraph⟩] := by
  refine ⟨?_, by decide, by decide⟩
  intro doc
  unfold getDocumentChunks reclassifyLast specReclassifyLast
  cases lastParagraphIdx (assembleChunks doc) with
  | none => rfl
  | some i => simp only [isTrailersChunkLines_eq_spec]

/-! ## C6, C7, C8, C9: concrete evaluations and branch structure -/

theorem editForChunk_cases (doc : List String) (c : Chunk) :
    editForChunk doc c =
      if isEditedKind c.kind then
        some ⟨c.startLine, c.endLine, replacementFor doc c⟩
      else none := by
  cases hk : c.kind <;> simp [editForChunk, replacementFor, isEditedKind, hk]

/-- Claim C7 (amended): the per-chunk `formatGitCommitMessage` emits an
edit exactly for the chunks of kind Subject, Paragraph, Trailers and
Blank — the Trailers replacement being the chunk's own text and the Blank
replacement the empty string — and no edit for Comment or Diff chunks. -/
theorem C7_edit_emission :
    (∀ doc : List String,
      formatGitCommitMessageEdits doc =
        ((getDocumentChunks doc).filter (fun c => isEditedKind c.kind)).map
          (fun c => ⟨c.startLine, c.endLine, replacementFor doc c⟩))
    ∧ (∀ (doc : List String) (c : Chunk), c ∈ getDocumentChunks doc →
        c.kind = GitChunkKind.Comment ∨ c.kind = GitChunkKind.Diff →
        editForChunk doc c = none) := by
  constructor
  · intro doc
    unfold formatGitCommitMessageEdits
    generalize getDocumentChunks doc = cs
    induction cs with
    | nil => rfl
    | cons c rest ih =>
      rw [List.filterMap_cons, List.filter_cons, editForChunk_cases doc c]
      by_cases h : isEditedKind c.kind = true
      · simp [h, ih]
      · simp [h, ih]
  · intro doc c _ hk
    rcases hk with hk | hk <;> simp [editForChunk_cases, isEditedKind, hk]

/-- Claim C7 witness: on a single comment line the (Comment) chunk
produces no edit. -/
theorem C7_edit_emission_witness :
    editForChunk ["# hello"] ⟨0, 0, GitChunkKind.Comment⟩ = none :=
  C7_edit_emission.2 ["# hello"] ⟨0, 0, GitChunkKind.Comment⟩ (by decide)
    (Or.inl rfl)

/-- Claim C7 counterexample: on `docWithTrailers` the last chunk is a
Trailers chunk and an edit *is* emitted for it (an identity replacement),
so the edit list has three entries, not two — contradicting the claim
that no edit is emitted for Trailers chunks. -/
theorem C7_counterexample :
    ((getDocumentChunks docWithTrailers).getD 2 default).kind = GitChunkKind.Trailers
    ∧ (editForChunk docWithTrailers
        ((getDocumentChunks docWithTrailers).getD 2 default)).isSome = true
    ∧ (formatGitCommitMessageEdits docWithTrailers).length = 3 := by
  refine ⟨by decide, by decide, by decide⟩

/-- Claim C8 counterexample: a zero-line document does *not* yield an
empty chunk sequence — the fabricated initial Blank chunk survives. -/
theorem C8_counterexample : getDocumentChunks ([] : List String) ≠ [] := by
  decide

/-- Claim C8 (amended): a zero-line document yields exactly the
fabricated Blank chunk (empty range at position 0); the
`editEntireDocument` wrapper treats a zero-line document as a no-op and
returns no edits; and the subject-line selection has no line-0 fallback
to return on a zero-line document. -/
theorem C8_zero_line_document :
    getDocumentChunks ([] : List String) = [⟨0, 0, GitChunkKind.Blank⟩]
    ∧ (∀ cb : String → String, editEntireDocument cb [] = none)
    ∧ getSubjectLineSelection [] = none :=
  ⟨by decide, fun _ => rfl, by decide⟩

/-- Claim C6: the legacy whole-document transform is *not* idempotent.
On the two-comment-line document `"#\n#"` one application yields
`"\n#\n#"`, and applying the transform to that output — whether the
shared regex state is carried over or reset — yields `"\n\n#\n#"`: each
pass prepends another blank line. -/
theorem C6_legacy_not_idempotent :
    (legacyFormatGitCommitMessage "#\n#" 0).1 = "\n#\n#"
    ∧ (legacyFormatGitCommitMessage (legacyFormatGitCommitMessage "#\n#" 0).1
        (legacyFormatGitCommitMessage "#\n#" 0).2).1 = "\n\n#\n#"
    ∧ (legacyFormatGitCommitMessage (legacyFormatGitCommitMessage "#\n#" 0).1 0).1
        = "\n\n#\n#"
    ∧ (legacyFormatGitCommitMessage (legacyFormatGitCommitMessage "#\n#" 0).1
        (legacyFormatGitCommitMessage "#\n#" 0).2).1
        ≠ (legacyFormatGitCommitMessage "#\n#" 0).1 := by
  refine ⟨by decide, by decide, by decide, by decide⟩

/-- Claim C9: the legacy formatter is *not* deterministic across
invocations: the global `REGEX_SPLIT`'s `lastIndex` survives between
calls, so calling it twice on the input `"#"` returns `"\n#"` first and
`"#"` second. -/
theorem C9_legacy_shared_regex_state :
    (legacyFormatGitCommitMessage "#" 0).1 = "\n#"
    ∧ (legacyFormatGitCommitMessage "#" 0).2 = 1
    ∧ (legacyFormatGitCommitMessage "#" (legacyFormatGitCommitMessage "#" 0).2).1 = "#"
    ∧ (legacyFormatGitCommitMessage "#" (legacyFormatGitCommitMessage "#" 0).2).1
        ≠ (legacyFormatGitCommitMessage "#" 0).1 := by
  refine ⟨by decide, by decide, by decide, by decide⟩


end GitCommitFormat
